import Mathlib

/-!
Verification development for the sentinova repository.

The core under verification is the ticket-processing pipeline of
`src/processing_agent.py` (text normalization, classifier retry logic,
response validation, batch processing, ticket-status updates, pending-ticket
retrieval) together with the aggregation/alerting computations of
`src/dashboard.py` (`render_alerts_section`, the daily sentiment trend
grouping in `render_sentiment_trends`).

Strings are modelled as `List Char` (`Str`).  Python's whitespace class is
modelled by its ASCII fragment, timestamps by integers, and floats by
rationals.  External collaborators (the Firestore document store, the Gemini
model, `json.loads`) are modelled as explicit parameters or as pure
in-memory structures; store writes are modelled as always succeeding.
-/

namespace Sentinova

/-- Strings are modelled as lists of characters. -/
abbrev Str := List Char

/-- Python whitespace (the ASCII fragment of `str.strip` / regex `\s`):
space, tab, newline, carriage return, vertical tab, form feed. -/
def pyWs (c : Char) : Bool :=
  c == ' ' || c == '\t' || c == '\n' || c == '\r' || c == '\x0b' || c == '\x0c'

/-- Remove trailing characters satisfying `p` (helper for `pyStrip`). -/
def dropTrail (p : Char → Bool) (s : Str) : Str :=
  (s.reverse.dropWhile p).reverse

/-- Model of Python `str.strip()`: remove leading and trailing whitespace. -/
def pyStrip (s : Str) : Str :=
  dropTrail pyWs (s.dropWhile pyWs)

/-- Worker for `collapseWs`.  The flag records whether the previous character
was whitespace (in which case further whitespace is skipped). -/
def collapseGo (prevWs : Bool) : Str → Str
  | [] => []
  | c :: rest =>
    if pyWs c then
      if prevWs then collapseGo true rest
      else ' ' :: collapseGo true rest
    else c :: collapseGo false rest

/-- Model of `re.sub(r'\s+', ' ', text)`: every maximal whitespace run is
replaced by a single space. -/
def collapseWs (s : Str) : Str := collapseGo false s

/-- Split on newline characters (model of line structure used by
`re.MULTILINE` substitutions; `.` does not match `\n`, `^`/`$` anchor at
line boundaries, so those substitutions act line by line). -/
def splitLines : Str → List Str
  | [] => [[]]
  | c :: rest =>
    if c = '\n' then [] :: splitLines rest
    else
      match splitLines rest with
      | [] => [[c]]
      | w :: ws => (c :: w) :: ws

/-- Rejoin lines with newline characters. -/
def joinLines : List Str → Str
  | [] => []
  | [w] => w
  | w :: v :: ws => w ++ '\n' :: joinLines (v :: ws)

/-- Apply a per-line transformation (model of a MULTILINE whole-line
`re.sub`). -/
def lineMap (f : Str → Str) (s : Str) : Str :=
  joinLines ((splitLines s).map f)

/-- One line of `re.sub(r'^(From:|To:|Subject:|Date:).*$', '', text, flags=re.MULTILINE)`:
a line starting with one of the email-header words is emptied. -/
def headerLine (l : Str) : Str :=
  if "From:".toList.isPrefixOf l || "To:".toList.isPrefixOf l
      || "Subject:".toList.isPrefixOf l || "Date:".toList.isPrefixOf l then []
  else l

/-- One line of `re.sub(r'^--.*$', '', text, flags=re.MULTILINE)`: a line
starting with the signature delimiter `--` is emptied. -/
def sigLine (l : Str) : Str :=
  if "--".toList.isPrefixOf l then [] else l

/-- The character class of the URL regex
`http[s]?://(?:[a-zA-Z]|[0-9]|[$-_@.&+]|[!*\(\),]|(?:%[0-9a-fA-F][0-9a-fA-F]))+`.
Inside a regex character class `$-_` is the range U+0024..U+005F, which
already contains `A-Z`, `0-9`, `@`, `.`, `&`, `+`, `*`, `(`, `)`, `,` and
`%`; the `%hh` alternative is likewise subsumed by single `%` characters.
The union is therefore `!`, the range `$`..`_`, and `a`..`z`. -/
def urlChar (c : Char) : Bool :=
  c == '!' || ('$' ≤ c && c ≤ '_') || ('a' ≤ c && c ≤ 'z')

/-- Length of the URL-regex match anchored at the start of `s`, if any.
Greedy `[s]?` tries `https://` first; the trailing `(...)+` takes the
maximal nonempty run of `urlChar`s (nothing follows it in the pattern, so
greedy matching is maximal-run matching). -/
def matchUrlLen (s : Str) : Option Nat :=
  if "https://".toList.isPrefixOf s then
    let run := ((s.drop 8).takeWhile urlChar).length
    if run = 0 then none else some (8 + run)
  else if "http://".toList.isPrefixOf s then
    let run := ((s.drop 7).takeWhile urlChar).length
    if run = 0 then none else some (7 + run)
  else none

/-- Fuel-driven worker for `urlSub`; the fuel is an upper bound on the
length of the remaining input, so the `0` case is never reached when
starting from `s.length`. -/
def urlGo : Nat → Str → Str
  | _, [] => []
  | 0, s => s
  | fuel + 1, c :: rest =>
    match matchUrlLen (c :: rest) with
    | some n => urlGo fuel ((c :: rest).drop n)
    | none => c :: urlGo fuel rest

/-- Model of the URL-removal `re.sub`: scan left to right, deleting each
leftmost match and resuming after it. -/
def urlSub (s : Str) : Str := urlGo s.length s

/-- Length of the leading run of `c` in `s`. -/
def leadCount (c : Char) (s : Str) : Nat := (s.takeWhile (· == c)).length

/-- Fuel-driven worker for `runsSub`. -/
def runsSubGo (c : Char) (t k : Nat) : Nat → Str → Str
  | _, [] => []
  | 0, s => s
  | fuel + 1, a :: rest =>
    if a = c then
      let r := 1 + leadCount c rest
      if t ≤ r then
        List.replicate k c ++ runsSubGo c t k fuel (rest.drop (r - 1))
      else a :: runsSubGo c t k fuel rest
    else a :: runsSubGo c t k fuel rest

/-- Model of `re.sub(r'[c]{t,}', c*k, text)`: every maximal run of `c` of
length at least `t` is replaced by exactly `k` copies of `c`.  Used with
`('.', 3, 3)`, `('!', 2, 1)` and `('?', 2, 1)` for the three
punctuation-collapsing substitutions of `clean_text`. -/
def runsSub (c : Char) (t k : Nat) (s : Str) : Str := runsSubGo c t k s.length s

/-- Model of `SentimentProcessingAgent.clean_text`.  Mirrors the source
step by step: falsy (empty) input returns `""`; then whitespace collapse on
the stripped text, header-line removal, signature-line removal, URL
removal, the three punctuation collapses, and a final strip. -/
def clean_text (text : Str) : Str :=
  if text = [] then []
  else
    let t1 := collapseWs (pyStrip text)
    let t2 := lineMap headerLine t1
    let t3 := lineMap sigLine t2
    let t4 := urlSub t3
    let t5 := runsSub '?' 2 1 (runsSub '!' 2 1 (runsSub '.' 3 3 t4))
    pyStrip t5

/-- Canonical form produced by the whitespace-collapsing pass of
`clean_text`: no leading or trailing whitespace, no two adjacent
whitespace characters, and every whitespace character is a plain space. -/
structure CanonStr (s : Str) : Prop where
  headOk : ∀ c, s.head? = some c → pyWs c = false
  lastOk : ∀ c, s.getLast? = some c → pyWs c = false
  adjOk : ∀ x y, [x, y] <:+: s → pyWs x = true → pyWs y = true → False
  memOk : ∀ c ∈ s, pyWs c = true → c = ' '

lemma head?_of_isPrefix {s t : Str} {c : Char} (h : s <+: t) (hc : s.head? = some c) :
    t.head? = some c := by
  obtain ⟨u, rfl⟩ := h
  cases s with
  | nil => simp at hc
  | cons a s => simpa using hc

lemma dropWhile_eq_self_of_headq (p : Char → Bool) (s : Str)
    (h : ∀ c, s.head? = some c → p c = false) : s.dropWhile p = s := by
  cases s with
  | nil => rfl
  | cons c rest => simp [List.dropWhile, h c rfl]

lemma head?_dropWhile_false (p : Char → Bool) (s : Str) {c : Char}
    (h : (s.dropWhile p).head? = some c) : p c = false := by
  induction s with
  | nil => simp at h
  | cons a rest ih =>
    by_cases hp : p a
    · rw [List.dropWhile_cons_of_pos hp] at h
      exact ih h
    · rw [List.dropWhile_cons_of_neg hp] at h
      simp at h
      subst h
      simpa using hp

lemma dropTrail_pre (p : Char → Bool) (s : Str) : dropTrail p s <+: s := by
  have h0 : List.dropWhile p s.reverse <:+ s.reverse := List.dropWhile_suffix p
  obtain ⟨u, hu⟩ := h0
  refine ⟨u.reverse, ?_⟩
  unfold dropTrail
  rw [← List.reverse_append, hu, List.reverse_reverse]

lemma pyStrip_headOk (s : Str) {c : Char} (h : (pyStrip s).head? = some c) :
    pyWs c = false := by
  unfold pyStrip at h
  exact head?_dropWhile_false pyWs s
    (head?_of_isPrefix (dropTrail_pre pyWs (s.dropWhile pyWs)) h)

lemma pyStrip_lastOk (s : Str) {c : Char} (h : (pyStrip s).getLast? = some c) :
    pyWs c = false := by
  unfold pyStrip dropTrail at h
  rw [← List.head?_reverse, List.reverse_reverse] at h
  exact head?_dropWhile_false pyWs _ h

lemma pyStrip_eq_self (s : Str) (h1 : ∀ c, s.head? = some c → pyWs c = false)
    (h2 : ∀ c, s.getLast? = some c → pyWs c = false) : pyStrip s = s := by
  unfold pyStrip dropTrail
  rw [dropWhile_eq_self_of_headq pyWs s h1]
  rw [dropWhile_eq_self_of_headq pyWs s.reverse (by
    intro c hc
    rw [List.head?_reverse] at hc
    exact h2 c hc)]
  exact List.reverse_reverse s

lemma pyStrip_infx (s : Str) : pyStrip s <:+: s := by
  unfold pyStrip
  exact (dropTrail_pre pyWs (s.dropWhile pyWs)).isInfix.trans
    (List.dropWhile_suffix pyWs).isInfix

lemma pyStrip_idem (s : Str) : pyStrip (pyStrip s) = pyStrip s :=
  pyStrip_eq_self _ (fun _ h => pyStrip_headOk s h) (fun _ h => pyStrip_lastOk s h)

lemma collapseGo_true_headOk (s : Str) {c : Char}
    (h : (collapseGo true s).head? = some c) : pyWs c = false := by
  induction s with
  | nil => simp [collapseGo] at h
  | cons a rest ih =>
    by_cases hws : pyWs a
    · rw [show collapseGo true (a :: rest) = collapseGo true rest by
        simp [collapseGo, hws]] at h
      exact ih h
    · rw [show collapseGo true (a :: rest) = a :: collapseGo false rest by
        simp [collapseGo, hws]] at h
      simp at h
      subst h
      simpa using hws

lemma collapseGo_mem (s : Str) : ∀ b, ∀ c ∈ collapseGo b s, pyWs c = true → c = ' ' := by
  induction s with
  | nil => intro b c hc; simp [collapseGo] at hc
  | cons a rest ih =>
    intro b c hc hws
    by_cases ha : pyWs a
    · cases b with
      | true =>
        rw [show collapseGo true (a :: rest) = collapseGo true rest by
          simp [collapseGo, ha]] at hc
        exact ih true c hc hws
      | false =>
        rw [show collapseGo false (a :: rest) = ' ' :: collapseGo true rest by
          simp [collapseGo, ha]] at hc
        rcases List.mem_cons.mp hc with h | h
        · exact h
        · exact ih true c h hws
    · rw [show collapseGo b (a :: rest) = a :: collapseGo false rest by
        simp [collapseGo, ha]] at hc
      rcases List.mem_cons.mp hc with h | h
      · rw [h] at hws; exact absurd hws ha
      · exact ih false c h hws

lemma collapseGo_lastOk (s : Str) : ∀ b {c : Char}, s.getLast? = some c →
    pyWs c = false → (collapseGo b s).getLast? = some c := by
  induction s with
  | nil => intro b c h; simp at h
  | cons a rest ih =>
    intro b c h hc
    cases rest with
    | nil =>
      simp at h
      subst h
      have : pyWs a = false := hc
      simp [collapseGo, this]
    | cons r rs =>
      rw [List.getLast?_cons_cons] at h
      by_cases ha : pyWs a
      · cases b with
        | true =>
          rw [show collapseGo true (a :: r :: rs) = collapseGo true (r :: rs) by
            simp [collapseGo, ha]]
          exact ih true h hc
        | false =>
          rw [show collapseGo false (a :: r :: rs) = ' ' :: collapseGo true (r :: rs) by
            simp [collapseGo, ha]]
          have hz := ih true h hc
          cases hzz : collapseGo true (r :: rs) with
          | nil => rw [hzz] at hz; simp at hz
          | cons d ds => rw [hzz] at hz; rw [List.getLast?_cons_cons]; exact hz
      · rw [show collapseGo b (a :: r :: rs) = a :: collapseGo false (r :: rs) by
          simp [collapseGo, ha]]
        have hz := ih false h hc
        cases hzz : collapseGo false (r :: rs) with
        | nil => rw [hzz] at hz; simp at hz
        | cons d ds => rw [hzz] at hz; rw [List.getLast?_cons_cons]; exact hz

lemma collapseGo_adjOk (s : Str) : ∀ b, ∀ x y, [x, y] <:+: collapseGo b s →
    pyWs x = true → pyWs y = true → False := by
  induction s with
  | nil =>
    intro b x y h _ _
    simp [collapseGo] at h
  | cons a rest ih =>
    intro b x y h hx hy
    by_cases ha : pyWs a
    · cases b with
      | true =>
        rw [show collapseGo true (a :: rest) = collapseGo true rest by
          simp [collapseGo, ha]] at h
        exact ih true x y h hx hy
      | false =>
        rw [show collapseGo false (a :: rest) = ' ' :: collapseGo true rest by
          simp [collapseGo, ha]] at h
        rcases List.infix_cons_iff.mp h with hp | hi
        · obtain ⟨hx', hyp⟩ := List.cons_prefix_cons.mp hp
          cases hz : collapseGo true rest with
          | nil => rw [hz] at hyp; rw [List.prefix_nil] at hyp; simp at hyp
          | cons d ds =>
            rw [hz] at hyp
            obtain ⟨hy', _⟩ := List.cons_prefix_cons.mp hyp
            have hd : (collapseGo true rest).head? = some d := by rw [hz]; rfl
            rw [hy'] at hy
            rw [collapseGo_true_headOk rest hd] at hy
            exact absurd hy (by simp)
        · exact ih true x y hi hx hy
    · rw [show collapseGo b (a :: rest) = a :: collapseGo false rest by
        simp [collapseGo, ha]] at h
      rcases List.infix_cons_iff.mp h with hp | hi
      · obtain ⟨hx', _⟩ := List.cons_prefix_cons.mp hp
        rw [hx'] at hx
        exact absurd hx ha
      · exact ih false x y hi hx hy

lemma collapseGo_eq_self (s : Str)
    (hadj : ∀ x y, [x, y] <:+: s → pyWs x = true → pyWs y = true → False)
    (hmem : ∀ c ∈ s, pyWs c = true → c = ' ') :
    ∀ b, (b = true → ∀ c, s.head? = some c → pyWs c = false) → collapseGo b s = s := by
  induction s with
  | nil => intro b _; rfl
  | cons a rest ih =>
    intro b hb
    have hadj' : ∀ x y, [x, y] <:+: rest → pyWs x = true → pyWs y = true → False :=
      fun x y hxy => hadj x y (List.infix_cons_iff.mpr (Or.inr hxy))
    have hmem' : ∀ c ∈ rest, pyWs c = true → c = ' ' :=
      fun c hc => hmem c (List.mem_cons_of_mem a hc)
    by_cases ha : pyWs a
    · cases b with
      | true =>
        have := hb rfl a rfl
        rw [ha] at this
        exact absurd this (by simp)
      | false =>
        rw [show collapseGo false (a :: rest) = ' ' :: collapseGo true rest by
          simp [collapseGo, ha]]
        have haeq : a = ' ' := hmem a (List.mem_cons_self a rest) ha
        rw [ih hadj' hmem' true (by
          intro _ c hc
          cases rest with
          | nil => simp at hc
          | cons r rs =>
            have hcr : r = c := by simpa using hc
            subst hcr
            by_contra hws
            exact hadj a r (List.infix_cons_iff.mpr (Or.inl ⟨rs, rfl⟩)) ha
              (by simpa using hws)), haeq]
    · rw [show collapseGo b (a :: rest) = a :: collapseGo false rest by
        simp [collapseGo, ha]]
      rw [ih hadj' hmem' false (by intro h; exact absurd h (by simp))]

lemma collapseGo_pre (s : Str) (pat : Str) (hws : ∀ c ∈ pat, pyWs c = false)
    (h : pat <+: collapseGo false s) : pat <+: s := by
  induction s generalizing pat with
  | nil =>
    rw [show collapseGo false [] = [] from rfl] at h
    rw [List.prefix_nil.mp h]
  | cons a rest ih =>
    by_cases ha : pyWs a
    · rw [show collapseGo false (a :: rest) = ' ' :: collapseGo true rest by
        simp [collapseGo, ha]] at h
      cases pat with
      | nil => exact List.nil_prefix
      | cons p pt =>
        rcases h with ⟨u, hu⟩
        have : p = ' ' := by simpa using congrArg (fun l => l.get? 0) hu
        have hws' := hws p (List.mem_cons_self p pt)
        rw [this] at hws'
        exact absurd hws' (by simp [pyWs])
    · rw [show collapseGo false (a :: rest) = a :: collapseGo false rest by
        simp [collapseGo, ha]] at h
      cases pat with
      | nil => exact List.nil_prefix
      | cons p pt =>
        rcases List.cons_prefix_cons.mp h with ⟨rfl, hpt⟩
        exact List.cons_prefix_cons.mpr ⟨rfl,
          ih pt (fun c hc => hws c (List.mem_cons_of_mem _ hc)) hpt⟩

lemma collapseGo_occ (s : Str) (pat : Str) (hne : pat ≠ [])
    (hws : ∀ c ∈ pat, pyWs c = false) :
    ∀ b, pat <:+: collapseGo b s → pat <:+: s := by
  induction s with
  | nil =>
    intro b h
    rw [show collapseGo b [] = [] from rfl] at h
    exact absurd (List.eq_nil_of_infix_nil h) hne
  | cons a rest ih =>
    intro b h
    by_cases ha : pyWs a
    · cases b with
      | true =>
        rw [show collapseGo true (a :: rest) = collapseGo true rest by
          simp [collapseGo, ha]] at h
        exact List.infix_cons_iff.mpr (Or.inr (ih true h))
      | false =>
        rw [show collapseGo false (a :: rest) = ' ' :: collapseGo true rest by
          simp [collapseGo, ha]] at h
        rcases List.infix_cons_iff.mp h with hp | hi
        · cases pat with
          | nil => exact absurd rfl hne
          | cons p pt =>
            rcases hp with ⟨u, hu⟩
            have : p = ' ' := by simpa using congrArg (fun l => l.get? 0) hu
            have hws' := hws p (List.mem_cons_self p pt)
            rw [this] at hws'
            exact absurd hws' (by simp [pyWs])
        · exact List.infix_cons_iff.mpr (Or.inr (ih true hi))
    · rw [show collapseGo b (a :: rest) = a :: collapseGo false rest by
        simp [collapseGo, ha]] at h
      rcases List.infix_cons_iff.mp h with hp | hi
      · cases pat with
        | nil => exact absurd rfl hne
        | cons p pt =>
          rcases List.cons_prefix_cons.mp hp with ⟨rfl, hpt⟩
          exact (List.cons_prefix_cons.mpr ⟨rfl,
            collapseGo_pre rest pt (fun c hc => hws c (List.mem_cons_of_mem _ hc)) hpt⟩).isInfix
      · exact List.infix_cons_iff.mpr (Or.inr (ih false hi))

lemma canon_collapse_pyStrip (x : Str) : CanonStr (collapseWs (pyStrip x)) := by
  constructor
  · intro c h
    unfold collapseWs at h
    cases hy : pyStrip x with
    | nil => rw [hy] at h; simp [collapseGo] at h
    | cons a rest =>
      rw [hy] at h
      have ha : pyWs a = false := pyStrip_headOk x (by rw [hy]; rfl)
      rw [show collapseGo false (a :: rest) = a :: collapseGo false rest by
        simp [collapseGo, ha]] at h
      simp at h
      subst h
      exact ha
  · intro c h
    unfold collapseWs at h
    cases hy : pyStrip x with
    | nil => rw [hy] at h; simp [collapseGo] at h
    | cons a rest =>
      rw [hy] at h
      have hlast : (pyStrip x).getLast? = some ((a :: rest).getLast (by simp)) := by
        rw [hy]; exact List.getLast?_eq_getLast _ _
      have hc0 : pyWs ((a :: rest).getLast (by simp)) = false := pyStrip_lastOk x hlast
      have := collapseGo_lastOk (a :: rest) false (List.getLast?_eq_getLast _ _) hc0
      rw [this] at h
      simp at h
      rw [← h]
      exact hc0
  · intro x' y h
    exact collapseGo_adjOk (pyStrip x) false x' y h
  · intro c h
    exact collapseGo_mem (pyStrip x) false c h

lemma canon_pyStrip_eq (s : Str) (h : CanonStr s) : pyStrip s = s :=
  pyStrip_eq_self s h.headOk h.lastOk

lemma canon_collapse_eq (s : Str) (h : CanonStr s) : collapseWs s = s :=
  collapseGo_eq_self s h.adjOk h.memOk false (by intro hb; exact absurd hb (by simp))

lemma takeWhile_eq_replicate (c : Char) (s : Str) :
    s.takeWhile (· == c) = List.replicate (leadCount c s) c := by
  induction s with
  | nil => rfl
  | cons a rest ih =>
    by_cases ha : a = c
    · subst ha
      rw [show leadCount a (a :: rest) = 1 + leadCount a rest by
        simp [leadCount, List.takeWhile, Nat.add_comm]]
      rw [show (a :: rest).takeWhile (· == a) = a :: rest.takeWhile (· == a) by
        simp [List.takeWhile]]
      rw [ih, Nat.add_comm, List.replicate_succ]
    · have : (a == c) = false := by simpa using ha
      simp [leadCount, List.takeWhile, this]

lemma drop_leadCount (c : Char) (s : Str) :
    s.drop (leadCount c s) = s.dropWhile (· == c) := by
  rw [show leadCount c s = (s.takeWhile (· == c)).length from rfl]
  nth_rewrite 2 [← List.takeWhile_append_dropWhile (· == c) s]
  exact List.drop_left _ _

lemma leadCount_cons_self (c : Char) (rest : Str) :
    leadCount c (c :: rest) = 1 + leadCount c rest := by
  simp [leadCount, List.takeWhile, Nat.add_comm]

lemma run_decomp (c : Char) (rest : Str) :
    c :: rest = List.replicate (1 + leadCount c rest) c ++ rest.dropWhile (· == c) := by
  rw [Nat.add_comm, List.replicate_succ]
  have := List.takeWhile_append_dropWhile (· == c) rest
  conv_lhs => rw [← this]
  rw [takeWhile_eq_replicate]
  rfl

lemma dropWhile_headq_ne (c : Char) (s : Str) {d : Char}
    (h : (s.dropWhile (· == c)).head? = some d) : d ≠ c := by
  have := head?_dropWhile_false (· == c) s h
  simpa using this

lemma runsSubGo_fuel (c : Char) (t k : Nat) :
    ∀ f1 : Nat, ∀ f2 : Nat, ∀ s : Str, s.length ≤ f1 → s.length ≤ f2 →
      runsSubGo c t k f1 s = runsSubGo c t k f2 s := by
  intro f1
  induction f1 with
  | zero =>
    intro f2 s h1 _
    rw [List.length_eq_zero.mp (Nat.le_zero.mp h1)]
    cases f2 <;> rfl
  | succ g ih =>
    intro f2 s h1 h2
    cases s with
    | nil => cases f2 <;> rfl
    | cons a rest =>
      cases f2 with
      | zero => simp at h2
      | succ g2 =>
        simp only [List.length_cons, Nat.succ_le_succ_iff] at h1 h2
        simp only [runsSubGo]
        split_ifs with ha ht
        · have hlen : (rest.drop (1 + leadCount c rest - 1)).length ≤ g := by
            have := List.length_drop (1 + leadCount c rest - 1) rest
            omega
          have hlen2 : (rest.drop (1 + leadCount c rest - 1)).length ≤ g2 := by
            have := List.length_drop (1 + leadCount c rest - 1) rest
            omega
          rw [ih g2 _ hlen hlen2]
        all_goals rw [ih g2 rest h1 h2]

lemma runsSub_nil (c : Char) (t k : Nat) : runsSub c t k [] = [] := rfl

lemma runsSub_cons_ne (c : Char) (t k : Nat) {a : Char} (rest : Str) (ha : a ≠ c) :
    runsSub c t k (a :: rest) = a :: runsSub c t k rest := by
  unfold runsSub
  simp only [List.length_cons, runsSubGo, if_neg ha]

lemma runsSub_cons_lt (c : Char) (t k : Nat) (rest : Str)
    (ht : ¬ t ≤ 1 + leadCount c rest) :
    runsSub c t k (c :: rest) = c :: runsSub c t k rest := by
  unfold runsSub
  simp only [List.length_cons, runsSubGo]
  split_ifs with h0
  · rfl
  · rfl

lemma runsSub_cons_ge (c : Char) (t k : Nat) (rest : Str)
    (ht : t ≤ 1 + leadCount c rest) :
    runsSub c t k (c :: rest) =
      List.replicate k c ++ runsSub c t k (rest.dropWhile (· == c)) := by
  unfold runsSub
  simp only [List.length_cons, runsSubGo]
  split_ifs with h0
  · congr 1
    rw [show 1 + leadCount c rest - 1 = leadCount c rest by omega, drop_leadCount]
    refine runsSubGo_fuel c t k _ _ _ ?_ ?_
    · have h3 : (rest.dropWhile (· == c)).length ≤ rest.length :=
        (List.dropWhile_suffix (· == c)).sublist.length_le
      omega
    · exact le_refl _
  · exact absurd trivial h0

lemma runsSub_headq (c : Char) (t k : Nat) (hk : 1 ≤ k) (s : Str) :
    (runsSub c t k s).head? = s.head? := by
  cases s with
  | nil => rfl
  | cons a rest =>
    by_cases ha : a = c
    · subst ha
      by_cases ht : t ≤ 1 + leadCount a rest
      · rw [runsSub_cons_ge a t k rest ht]
        obtain ⟨j, rfl⟩ := Nat.exists_eq_add_of_le hk
        rw [Nat.add_comm, List.replicate_succ]
        rfl
      · rw [runsSub_cons_lt a t k rest ht]
        rfl
    · rw [runsSub_cons_ne c t k rest ha]
      rfl

lemma getLast?_cons_of_ne_nil {x : Char} {z : Str} (h : z ≠ []) :
    (x :: z).getLast? = z.getLast? := by
  cases z with
  | nil => exact absurd rfl h
  | cons d ds => exact List.getLast?_cons_cons

lemma getLast?_replicate_succ (c : Char) (j : Nat) :
    (List.replicate (j + 1) c).getLast? = some c := by
  rw [List.replicate_succ', List.getLast?_concat]

lemma runsSub_ne_nil (c : Char) (t k : Nat) (hk : 1 ≤ k) {s : Str} (h : s ≠ []) :
    runsSub c t k s ≠ [] := by
  intro hcon
  cases s with
  | nil => exact h rfl
  | cons a rest =>
    have := runsSub_headq c t k hk (a :: rest)
    rw [hcon] at this
    simp at this

lemma runsSub_lastq_bounded (c : Char) (t k : Nat) (hk : 1 ≤ k) :
    ∀ n : Nat, ∀ s : Str, s.length ≤ n →
      (runsSub c t k s).getLast? = s.getLast? := by
  intro n
  induction n with
  | zero =>
    intro s h
    rw [List.length_eq_zero.mp (Nat.le_zero.mp h)]
    rfl
  | succ m ih =>
    intro s hlen
    cases s with
    | nil => rfl
    | cons a rest =>
      simp only [List.length_cons, Nat.succ_le_succ_iff] at hlen
      have step : (a :: runsSub c t k rest).getLast? = (a :: rest).getLast? := by
        cases rest with
        | nil => rfl
        | cons d ds =>
          have hne : runsSub c t k (d :: ds) ≠ [] :=
            runsSub_ne_nil c t k hk (by simp)
          rw [getLast?_cons_of_ne_nil hne, List.getLast?_cons_cons]
          exact ih (d :: ds) hlen
      by_cases ha : a = c
      · subst ha
        by_cases ht : t ≤ 1 + leadCount a rest
        · rw [runsSub_cons_ge a t k rest ht]
          have hsplit : a :: rest = List.replicate (1 + leadCount a rest) a ++
              rest.dropWhile (· == a) := run_decomp a rest
          by_cases haf : rest.dropWhile (· == a) = []
          · rw [haf, runsSub_nil, List.append_nil]
            obtain ⟨j, rfl⟩ := Nat.exists_eq_add_of_le hk
            rw [Nat.add_comm 1 j, getLast?_replicate_succ]
            rw [hsplit, haf, List.append_nil, Nat.add_comm 1 (leadCount a rest),
              getLast?_replicate_succ]
          · have hdlen : (rest.dropWhile (· == a)).length ≤ m :=
              le_trans ((List.dropWhile_suffix (· == a)).sublist.length_le) hlen
            obtain ⟨y, hy⟩ : ∃ y, (rest.dropWhile (· == a)).getLast? = some y := by
              cases hd : rest.dropWhile (· == a) with
              | nil => exact absurd hd haf
              | cons d ds =>
                exact ⟨(d :: ds).getLast (by simp), List.getLast?_eq_getLast _ _⟩
            rw [List.getLast?_append, ih _ hdlen, hy]
            conv_rhs => rw [hsplit]
            rw [List.getLast?_append, hy]
            rfl
        · rw [runsSub_cons_lt a t k rest ht]
          exact step
      · rw [runsSub_cons_ne c t k rest ha]
        exact step

lemma runsSub_lastq (c : Char) (t k : Nat) (hk : 1 ≤ k) (s : Str) :
    (runsSub c t k s).getLast? = s.getLast? :=
  runsSub_lastq_bounded c t k hk s.length s (le_refl _)

lemma runsSub_sublist_bounded (c : Char) (t k : Nat) (hkt : k ≤ t) :
    ∀ n : Nat, ∀ s : Str, s.length ≤ n → (runsSub c t k s).Sublist s := by
  intro n
  induction n with
  | zero =>
    intro s h
    rw [List.length_eq_zero.mp (Nat.le_zero.mp h)]
    exact List.Sublist.refl _
  | succ m ih =>
    intro s hlen
    cases s with
    | nil => exact List.Sublist.refl _
    | cons a rest =>
      simp only [List.length_cons, Nat.succ_le_succ_iff] at hlen
      by_cases ha : a = c
      · subst ha
        by_cases ht : t ≤ 1 + leadCount a rest
        · rw [runsSub_cons_ge a t k rest ht]
          conv_rhs => rw [run_decomp a rest]
          exact List.Sublist.append
            ((List.replicate_sublist_replicate a).mpr (le_trans hkt ht))
            (ih _ (le_trans ((List.dropWhile_suffix (· == a)).sublist.length_le) hlen))
        · rw [runsSub_cons_lt a t k rest ht]
          exact List.Sublist.cons₂ a (ih rest hlen)
      · rw [runsSub_cons_ne c t k rest ha]
        exact List.Sublist.cons₂ a (ih rest hlen)

lemma runsSub_sublist (c : Char) (t k : Nat) (hkt : k ≤ t) (s : Str) :
    (runsSub c t k s).Sublist s :=
  runsSub_sublist_bounded c t k hkt s.length s (le_refl _)

lemma runsSub_pre_bounded (c : Char) (t k : Nat) (hk : 1 ≤ k) :
    ∀ n : Nat, ∀ pat s : Str, c ∉ pat → s.length ≤ n →
      pat <+: runsSub c t k s → pat <+: s := by
  intro n
  induction n with
  | zero =>
    intro pat s _ hlen h
    rw [List.length_eq_zero.mp (Nat.le_zero.mp hlen)] at h ⊢
    exact h
  | succ m ih =>
    intro pat s hc hlen h
    cases s with
    | nil => exact h
    | cons a rest =>
      simp only [List.length_cons, Nat.succ_le_succ_iff] at hlen
      by_cases ha : a = c
      · subst ha
        by_cases ht : t ≤ 1 + leadCount a rest
        · rw [runsSub_cons_ge a t k rest ht] at h
          cases pat with
          | nil => exact List.nil_prefix
          | cons p pt =>
            obtain ⟨j, rfl⟩ := Nat.exists_eq_add_of_le hk
            rw [Nat.add_comm 1 j, List.replicate_succ, List.cons_append] at h
            obtain ⟨hpa, _⟩ := List.cons_prefix_cons.mp h
            rw [hpa] at hc
            exact absurd (List.mem_cons_self a pt) hc
        · rw [runsSub_cons_lt a t k rest ht] at h
          cases pat with
          | nil => exact List.nil_prefix
          | cons p pt =>
            obtain ⟨hpa, _⟩ := List.cons_prefix_cons.mp h
            rw [hpa] at hc
            exact absurd (List.mem_cons_self a pt) hc
      · rw [runsSub_cons_ne c t k rest ha] at h
        cases pat with
        | nil => exact List.nil_prefix
        | cons p pt =>
          obtain ⟨hpa, hpt⟩ := List.cons_prefix_cons.mp h
          exact List.cons_prefix_cons.mpr ⟨hpa,
            ih pt rest (fun hmem => hc (List.mem_cons_of_mem p hmem)) hlen hpt⟩

lemma infx_repl_elim (c : Char) (pat : Str) (hne : pat ≠ []) (hc : c ∉ pat) :
    ∀ m : Nat, ∀ X : Str, pat <:+: List.replicate m c ++ X → pat <:+: X := by
  intro m
  induction m with
  | zero => intro X h; simpa using h
  | succ j ih =>
    intro X h
    rw [List.replicate_succ, List.cons_append] at h
    rcases List.infix_cons_iff.mp h with hp | hi
    · cases pat with
      | nil => exact absurd rfl hne
      | cons p pt =>
        obtain ⟨hpc, _⟩ := List.cons_prefix_cons.mp hp
        rw [hpc] at hc
        exact absurd (List.mem_cons_self c pt) hc
    · exact ih X hi

lemma runsSub_occ_bounded (c : Char) (t k : Nat) (hk : 1 ≤ k) (pat : Str)
    (hne : pat ≠ []) (hc : c ∉ pat) :
    ∀ n : Nat, ∀ s : Str, s.length ≤ n →
      pat <:+: runsSub c t k s → pat <:+: s := by
  intro n
  induction n with
  | zero =>
    intro s hlen h
    rw [List.length_eq_zero.mp (Nat.le_zero.mp hlen)] at h ⊢
    exact h
  | succ m ih =>
    intro s hlen h
    cases s with
    | nil => exact h
    | cons a rest =>
      simp only [List.length_cons, Nat.succ_le_succ_iff] at hlen
      by_cases ha : a = c
      · subst ha
        by_cases ht : t ≤ 1 + leadCount a rest
        · rw [runsSub_cons_ge a t k rest ht] at h
          have h2 := infx_repl_elim a pat hne hc k _ h
          have h3 := ih _ (le_trans ((List.dropWhile_suffix (· == a)).sublist.length_le)
            hlen) h2
          exact List.infix_cons_iff.mpr
            (Or.inr (h3.trans (List.dropWhile_suffix (· == a)).isInfix))
        · rw [runsSub_cons_lt a t k rest ht] at h
          rcases List.infix_cons_iff.mp h with hp | hi
          · cases pat with
            | nil => exact absurd rfl hne
            | cons p pt =>
              obtain ⟨hpc, _⟩ := List.cons_prefix_cons.mp hp
              rw [hpc] at hc
              exact absurd (List.mem_cons_self a pt) hc
          · exact List.infix_cons_iff.mpr (Or.inr (ih rest hlen hi))
      · rw [runsSub_cons_ne c t k rest ha] at h
        rcases List.infix_cons_iff.mp h with hp | hi
        · cases pat with
          | nil => exact absurd rfl hne
          | cons p pt =>
            obtain ⟨hpa, hpt⟩ := List.cons_prefix_cons.mp hp
            exact (List.cons_prefix_cons.mpr ⟨hpa,
              runsSub_pre_bounded c t k hk m pt rest
                (fun hmem => hc (List.mem_cons_of_mem p hmem)) hlen hpt⟩).isInfix
        · exact List.infix_cons_iff.mpr (Or.inr (ih rest hlen hi))

lemma runsSub_occ (c : Char) (t k : Nat) (hk : 1 ≤ k) (pat : Str)
    (hne : pat ≠ []) (hc : c ∉ pat) {s : Str}
    (h : pat <:+: runsSub c t k s) : pat <:+: s :=
  runsSub_occ_bounded c t k hk pat hne hc s.length s (le_refl _) h

lemma runsSub_pre (c : Char) (t k : Nat) (hk : 1 ≤ k) (pat : Str) (hc : c ∉ pat)
    {s : Str} (h : pat <+: runsSub c t k s) : pat <+: s :=
  runsSub_pre_bounded c t k hk s.length pat s hc (le_refl _) h

lemma runsSub_low (c : Char) (t k : Nat) :
    ∀ s : Str, leadCount c s < t →
      runsSub c t k s = List.replicate (leadCount c s) c ++
        runsSub c t k (s.dropWhile (· == c)) := by
  intro s
  induction s with
  | nil => intro _; rfl
  | cons a rest ih =>
    intro hlt
    by_cases ha : a = c
    · subst ha
      rw [leadCount_cons_self] at hlt ⊢
      rw [runsSub_cons_lt a t k rest (by omega)]
      rw [ih (by omega)]
      rw [List.dropWhile_cons_of_pos (by simp)]
      rw [Nat.add_comm 1 (leadCount a rest), List.replicate_succ, List.cons_append]
    · have hlc : leadCount c (a :: rest) = 0 := by
        simp [leadCount, List.takeWhile, show (a == c) = false by simpa using ha]
      rw [hlc, List.replicate_zero, List.nil_append,
        List.dropWhile_cons_of_neg (by simpa using ha)]

lemma repl_pre_bound (c : Char) (X : Str) (hX : ∀ d, X.head? = some d → d ≠ c) :
    ∀ i j : Nat, List.replicate j c <+: List.replicate i c ++ X → j ≤ i := by
  intro i
  induction i with
  | zero =>
    intro j h
    cases j with
    | zero => exact le_refl 0
    | succ j' =>
      rw [List.replicate_zero, List.nil_append, List.replicate_succ] at h
      obtain ⟨u, hu⟩ := h
      have : X.head? = some c := by rw [← hu]; rfl
      exact absurd rfl (hX c this)
  | succ i ih =>
    intro j h
    cases j with
    | zero => exact Nat.zero_le _
    | succ j' =>
      rw [List.replicate_succ, List.replicate_succ, List.cons_append] at h
      obtain ⟨_, h2⟩ := List.cons_prefix_cons.mp h
      exact Nat.succ_le_succ (ih j' h2)

lemma junction_elim (c : Char) (M : Nat) (X : Str)
    (hX : ∀ d, X.head? = some d → d ≠ c) :
    ∀ i : Nat, List.replicate M c <:+: List.replicate i c ++ X →
      M ≤ i ∨ List.replicate M c <:+: X := by
  intro i
  induction i with
  | zero => intro h; exact Or.inr (by simpa using h)
  | succ j ih =>
    intro h
    rw [List.replicate_succ, List.cons_append] at h
    rcases List.infix_cons_iff.mp h with hp | hi
    · left
      have h2 : List.replicate M c <+: List.replicate (j + 1) c ++ X := by
        rw [List.replicate_succ, List.cons_append]
        exact hp
      exact repl_pre_bound c X hX (j + 1) M h2
    · rcases ih hi with h1 | h2
      · exact Or.inl (Nat.le_succ_of_le h1)
      · exact Or.inr h2

lemma runsSub_no_long_bounded (c : Char) (t k : Nat) (hk : 1 ≤ k) (hkt : k ≤ t) :
    ∀ n : Nat, ∀ s : Str, s.length ≤ n →
      ¬ (List.replicate (max (k + 1) t) c <:+: runsSub c t k s) := by
  have hM1 : 1 ≤ max (k + 1) t := le_trans (by omega) (Nat.le_max_left (k + 1) t)
  intro n
  induction n with
  | zero =>
    intro s hlen h
    rw [List.length_eq_zero.mp (Nat.le_zero.mp hlen)] at h
    have h2 := congrArg List.length (List.eq_nil_of_infix_nil h)
    simp at h2
  | succ m ih =>
    intro s hlen h
    cases s with
    | nil =>
      have h2 := congrArg List.length (List.eq_nil_of_infix_nil h)
      simp at h2
    | cons a rest =>
      simp only [List.length_cons, Nat.succ_le_succ_iff] at hlen
      by_cases ha : a = c
      · subst ha
        by_cases ht : t ≤ 1 + leadCount a rest
        · rw [runsSub_cons_ge a t k rest ht] at h
          have hhead : ∀ d, (runsSub a t k (rest.dropWhile (· == a))).head? = some d →
              d ≠ a := by
            intro d hd
            rw [runsSub_headq a t k hk] at hd
            exact dropWhile_headq_ne a rest hd
          rcases junction_elim a (max (k + 1) t) _ hhead k h with h1 | h2
          · have := Nat.le_max_left (k + 1) t
            omega
          · exact ih _ (le_trans ((List.dropWhile_suffix (· == a)).sublist.length_le)
              hlen) h2
        · have hlow : leadCount a (a :: rest) < t := by
            rw [leadCount_cons_self]; omega
          rw [runsSub_low a t k (a :: rest) hlow] at h
          rw [List.dropWhile_cons_of_pos (by simp)] at h
          have hhead : ∀ d, (runsSub a t k (rest.dropWhile (· == a))).head? = some d →
              d ≠ a := by
            intro d hd
            rw [runsSub_headq a t k hk] at hd
            exact dropWhile_headq_ne a rest hd
          rcases junction_elim a (max (k + 1) t) _ hhead _ h with h1 | h2
          · rw [leadCount_cons_self] at h1
            have := Nat.le_max_right (k + 1) t
            omega
          · exact ih _ (le_trans ((List.dropWhile_suffix (· == a)).sublist.length_le)
              hlen) h2
      · rw [runsSub_cons_ne c t k rest ha] at h
        rcases List.infix_cons_iff.mp h with hp | hi
        · obtain ⟨j, hj⟩ := Nat.exists_eq_add_of_le hM1
          rw [hj, Nat.add_comm 1 j, List.replicate_succ] at hp
          obtain ⟨hca, _⟩ := List.cons_prefix_cons.mp hp
          exact ha hca.symm
        · exact ih rest hlen hi

lemma runsSub_no_long (c : Char) (t k : Nat) (hk : 1 ≤ k) (hkt : k ≤ t) (s : Str) :
    ¬ (List.replicate (max (k + 1) t) c <:+: runsSub c t k s) :=
  runsSub_no_long_bounded c t k hk hkt s.length s (le_refl _)

lemma runsSub_id_bounded (c : Char) (t k : Nat) (hkt : k ≤ t) :
    ∀ n : Nat, ∀ s : Str, s.length ≤ n →
      ¬ (List.replicate (max (k + 1) t) c <:+: s) → runsSub c t k s = s := by
  intro n
  induction n with
  | zero =>
    intro s hlen _
    rw [List.length_eq_zero.mp (Nat.le_zero.mp hlen)]
    rfl
  | succ m ih =>
    intro s hlen h
    cases s with
    | nil => rfl
    | cons a rest =>
      simp only [List.length_cons, Nat.succ_le_succ_iff] at hlen
      have hrest : ¬ (List.replicate (max (k + 1) t) c <:+: rest) := by
        intro hcon
        exact h (List.infix_cons_iff.mpr (Or.inr hcon))
      by_cases ha : a = c
      · subst ha
        have hrM : 1 + leadCount a rest < max (k + 1) t := by
          by_contra hcon
          push_neg at hcon
          apply h
          have hdec := run_decomp a rest
          have hpre : List.replicate (max (k + 1) t) a <+: a :: rest := by
            rw [hdec]
            obtain ⟨j, hj⟩ := Nat.exists_eq_add_of_le hcon
            rw [hj, List.replicate_add]
            exact ⟨List.replicate j a ++ rest.dropWhile (· == a),
              by rw [List.append_assoc]⟩
          exact hpre.isInfix
        by_cases ht : t ≤ 1 + leadCount a rest
        · have hreq : 1 + leadCount a rest = k := by
            rcases lt_max_iff.mp hrM with h1 | h2
            · omega
            · omega
          rw [runsSub_cons_ge a t k rest ht]
          have hafter : ¬ (List.replicate (max (k + 1) t) a <:+:
              rest.dropWhile (· == a)) := by
            intro hcon
            exact hrest (hcon.trans (List.dropWhile_suffix (· == a)).isInfix)
          rw [ih _ (le_trans ((List.dropWhile_suffix (· == a)).sublist.length_le)
            hlen) hafter]
          conv_rhs => rw [run_decomp a rest]
          rw [hreq]
        · rw [runsSub_cons_lt a t k rest ht]
          rw [ih rest hlen hrest]
      · rw [runsSub_cons_ne c t k rest ha]
        rw [ih rest hlen hrest]

lemma runsSub_id (c : Char) (t k : Nat) (hkt : k ≤ t) {s : Str}
    (h : ¬ (List.replicate (max (k + 1) t) c <:+: s)) : runsSub c t k s = s :=
  runsSub_id_bounded c t k hkt s.length s (le_refl _) h

lemma canon_runsSub (c : Char) (t k : Nat) (hcws : pyWs c = false) (hk : 1 ≤ k)
    (hkt : k ≤ t) {s : Str} (h : CanonStr s) : CanonStr (runsSub c t k s) := by
  constructor
  · intro d hd
    rw [runsSub_headq c t k hk] at hd
    exact h.headOk d hd
  · intro d hd
    rw [runsSub_lastq c t k hk] at hd
    exact h.lastOk d hd
  · intro x y hxy hx hy
    have hcpat : c ∉ [x, y] := by
      intro hmem
      rcases List.mem_cons.mp hmem with hh | hh
      · rw [← hh] at hx
        rw [hcws] at hx
        exact absurd hx (by simp)
      · simp at hh
        rw [← hh] at hy
        rw [hcws] at hy
        exact absurd hy (by simp)
    exact h.adjOk x y (runsSub_occ c t k hk [x, y] (by simp) hcpat hxy) hx hy
  · intro d hd hws
    exact h.memOk d ((runsSub_sublist c t k hkt s).subset hd) hws

lemma matchUrlLen_pos {s : Str} {n : Nat} (h : matchUrlLen s = some n) : 1 ≤ n := by
  unfold matchUrlLen at h
  split_ifs at h with h1 h2 <;> simp at h <;> omega

lemma matchUrlLen_some_pre {s : Str} {n : Nat} (h : matchUrlLen s = some n) :
    ("https://".toList <+: s) ∨ ("http://".toList <+: s) := by
  unfold matchUrlLen at h
  by_cases h1 : "https://".toList.isPrefixOf s = true
  · exact Or.inl (List.isPrefixOf_iff_prefix.mp h1)
  · rw [if_neg (by simpa using h1)] at h
    by_cases h2 : "http://".toList.isPrefixOf s = true
    · exact Or.inr (List.isPrefixOf_iff_prefix.mp h2)
    · rw [if_neg (by simpa using h2)] at h
      simp at h

lemma urlGo_fuel : ∀ f1 f2 : Nat, ∀ s : Str, s.length ≤ f1 → s.length ≤ f2 →
    urlGo f1 s = urlGo f2 s := by
  intro f1
  induction f1 with
  | zero =>
    intro f2 s h1 _
    rw [List.length_eq_zero.mp (Nat.le_zero.mp h1)]
    cases f2 <;> rfl
  | succ g ih =>
    intro f2 s h1 h2
    cases s with
    | nil => cases f2 <;> rfl
    | cons a rest =>
      cases f2 with
      | zero => simp at h2
      | succ g2 =>
        simp only [List.length_cons, Nat.succ_le_succ_iff] at h1 h2
        simp only [urlGo]
        cases hm : matchUrlLen (a :: rest) with
        | none =>
          show a :: urlGo g rest = a :: urlGo g2 rest
          rw [ih g2 rest h1 h2]
        | some n =>
          have hn := matchUrlLen_pos hm
          have hd : ((a :: rest).drop n).length ≤ g := by
            have := List.length_drop n (a :: rest)
            simp only [List.length_cons] at this
            omega
          have hd2 : ((a :: rest).drop n).length ≤ g2 := by
            have := List.length_drop n (a :: rest)
            simp only [List.length_cons] at this
            omega
          show urlGo g ((a :: rest).drop n) = urlGo g2 ((a :: rest).drop n)
          rw [ih g2 _ hd hd2]

lemma urlSub_cons_none {a : Char} {rest : Str} (hm : matchUrlLen (a :: rest) = none) :
    urlSub (a :: rest) = a :: urlSub rest := by
  unfold urlSub
  simp only [List.length_cons, urlGo, hm]

lemma urlSub_id_bounded : ∀ n : Nat, ∀ s : Str, s.length ≤ n →
    ¬ ("http://".toList <:+: s) → ¬ ("https://".toList <:+: s) → urlSub s = s := by
  intro n
  induction n with
  | zero =>
    intro s hlen _ _
    rw [List.length_eq_zero.mp (Nat.le_zero.mp hlen)]
    rfl
  | succ m ih =>
    intro s hlen h1 h2
    cases s with
    | nil => rfl
    | cons a rest =>
      simp only [List.length_cons, Nat.succ_le_succ_iff] at hlen
      cases hm : matchUrlLen (a :: rest) with
      | some n2 =>
        rcases matchUrlLen_some_pre hm with hp | hp
        · exact absurd hp.isInfix h2
        · exact absurd hp.isInfix h1
      | none =>
        rw [urlSub_cons_none hm]
        rw [ih rest hlen
          (fun hcon => h1 (List.infix_cons_iff.mpr (Or.inr hcon)))
          (fun hcon => h2 (List.infix_cons_iff.mpr (Or.inr hcon)))]

lemma urlSub_id {s : Str} (h1 : ¬ ("http://".toList <:+: s))
    (h2 : ¬ ("https://".toList <:+: s)) : urlSub s = s :=
  urlSub_id_bounded s.length s (le_refl _) h1 h2

lemma splitLines_no_nl : ∀ s : Str, '\n' ∉ s → splitLines s = [s] := by
  intro s
  induction s with
  | nil => intro _; rfl
  | cons c rest ih =>
    intro h
    have hc : ¬ c = '\n' := fun hh => h (by rw [hh]; exact List.mem_cons_self _ _)
    simp only [splitLines, if_neg hc]
    rw [ih (fun hm => h (List.mem_cons_of_mem c hm))]

lemma lineMap_no_nl (f : Str → Str) (s : Str) (h : '\n' ∉ s) :
    lineMap f s = f s := by
  unfold lineMap
  rw [splitLines_no_nl s h]
  rfl

lemma canon_no_nl {s : Str} (h : CanonStr s) : '\n' ∉ s := by
  intro hmem
  have := h.memOk '\n' hmem (by decide)
  exact absurd this (by decide)

/-- The combined punctuation-collapsing pass of `clean_text`. -/
def punctPass (s : Str) : Str :=
  runsSub '?' 2 1 (runsSub '!' 2 1 (runsSub '.' 3 3 s))

lemma clean_text_eval (x : Str) (hx : x ≠ []) :
    clean_text x = pyStrip (punctPass
      (urlSub (lineMap sigLine (lineMap headerLine (collapseWs (pyStrip x)))))) := by
  simp only [clean_text, if_neg hx, punctPass]

lemma canon_punctPass {s : Str} (h : CanonStr s) : CanonStr (punctPass s) :=
  canon_runsSub '?' 2 1 (by decide) (by decide) (by decide)
    (canon_runsSub '!' 2 1 (by decide) (by decide) (by decide)
      (canon_runsSub '.' 3 3 (by decide) (by decide) (by decide) h))

lemma punctPass_pre (pat : Str) (hd : '.' ∉ pat) (hb : '!' ∉ pat) (hq : '?' ∉ pat)
    {s : Str} (h : pat <+: punctPass s) : pat <+: s :=
  runsSub_pre '.' 3 3 (by decide) pat hd
    (runsSub_pre '!' 2 1 (by decide) pat hb
      (runsSub_pre '?' 2 1 (by decide) pat hq h))

lemma punctPass_occ (pat : Str) (hne : pat ≠ []) (hd : '.' ∉ pat) (hb : '!' ∉ pat)
    (hq : '?' ∉ pat) {s : Str} (h : pat <:+: punctPass s) : pat <:+: s :=
  runsSub_occ '.' 3 3 (by decide) pat hne hd
    (runsSub_occ '!' 2 1 (by decide) pat hne hb
      (runsSub_occ '?' 2 1 (by decide) pat hne hq h))

lemma punctPass_headq (s : Str) : (punctPass s).head? = s.head? := by
  unfold punctPass
  rw [runsSub_headq '?' 2 1 (by decide), runsSub_headq '!' 2 1 (by decide),
    runsSub_headq '.' 3 3 (by decide)]

lemma punctPass_idem (s : Str) : punctPass (punctPass s) = punctPass s := by
  have hd : runsSub '.' 3 3 (punctPass s) = punctPass s := by
    refine runsSub_id '.' 3 3 (by decide) ?_
    intro hcon
    have h1 : List.replicate (max (3 + 1) 3) '.' <:+:
        runsSub '.' 3 3 s :=
      runsSub_occ '!' 2 1 (by decide) _ (by decide) (by decide)
        (runsSub_occ '?' 2 1 (by decide) _ (by decide) (by decide) hcon)
    exact runsSub_no_long '.' 3 3 (by decide) (by decide) s h1
  have hb : runsSub '!' 2 1 (punctPass s) = punctPass s := by
    refine runsSub_id '!' 2 1 (by decide) ?_
    intro hcon
    have h1 : List.replicate (max (1 + 1) 2) '!' <:+:
        runsSub '!' 2 1 (runsSub '.' 3 3 s) :=
      runsSub_occ '?' 2 1 (by decide) _ (by decide) (by decide) hcon
    exact runsSub_no_long '!' 2 1 (by decide) (by decide) _ h1
  have hq : runsSub '?' 2 1 (punctPass s) = punctPass s := by
    refine runsSub_id '?' 2 1 (by decide) ?_
    intro hcon
    exact runsSub_no_long '?' 2 1 (by decide) (by decide) _ hcon
  show runsSub '?' 2 1 (runsSub '!' 2 1 (runsSub '.' 3 3 (punctPass s))) = punctPass s
  rw [hd, hb, hq]

/-- Normalizing an already-normalized whitespace/header/signature-free string:
the header-condition Booleans of `headerLine`. -/
def headerCond (l : Str) : Bool :=
  "From:".toList.isPrefixOf l || "To:".toList.isPrefixOf l
    || "Subject:".toList.isPrefixOf l || "Date:".toList.isPrefixOf l

lemma headerLine_of_cond {l : Str} (h : headerCond l = true) : headerLine l = [] := by
  unfold headerLine
  rw [if_pos (by simpa [headerCond] using h)]

lemma headerLine_of_not_cond {l : Str} (h : headerCond l = false) : headerLine l = l := by
  unfold headerLine
  rw [if_neg (by simp [headerCond] at h; simp [h])]

lemma sigLine_of_cond {l : Str} (h : "--".toList.isPrefixOf l = true) : sigLine l = [] := by
  unfold sigLine
  rw [if_pos h]

lemma sigLine_of_not_cond {l : Str} (h : "--".toList.isPrefixOf l = false) :
    sigLine l = l := by
  unfold sigLine
  rw [if_neg (by rw [h]; simp)]

lemma clean_text_nil : clean_text [] = [] := rfl

theorem clean_text_idem_main (x : Str)
    (h1 : ¬ ("http://".toList <:+: x)) (h2 : ¬ ("https://".toList <:+: x)) :
    clean_text (clean_text x) = clean_text x := by
  by_cases hx : x = []
  · subst hx; rfl
  have hcanon : CanonStr (collapseWs (pyStrip x)) := canon_collapse_pyStrip x
  set t1 := collapseWs (pyStrip x) with ht1def
  have hnl : '\n' ∉ t1 := canon_no_nl hcanon
  have hu1 : ¬ ("http://".toList <:+: t1) := by
    intro hcon
    exact h1 ((collapseGo_occ (pyStrip x) _ (by decide) (by decide) false hcon).trans
      (pyStrip_infx x))
  have hu2 : ¬ ("https://".toList <:+: t1) := by
    intro hcon
    exact h2 ((collapseGo_occ (pyStrip x) _ (by decide) (by decide) false hcon).trans
      (pyStrip_infx x))
  rw [clean_text_eval x hx]
  by_cases ht1nil : t1 = []
  · rw [show pyStrip (punctPass (urlSub (lineMap sigLine (lineMap headerLine t1)))) = []
      by rw [ht1nil]; rfl]
    rfl
  by_cases hH : headerCond t1 = true
  · rw [show pyStrip (punctPass (urlSub (lineMap sigLine (lineMap headerLine t1)))) = []
      by rw [lineMap_no_nl headerLine t1 hnl, headerLine_of_cond hH]; rfl]
    rfl
  have hHf : headerCond t1 = false := by
    cases hcc : headerCond t1
    · rfl
    · exact absurd hcc hH
  rw [lineMap_no_nl headerLine t1 hnl, headerLine_of_not_cond hHf]
  by_cases hS : "--".toList.isPrefixOf t1 = true
  · rw [show pyStrip (punctPass (urlSub (lineMap sigLine t1))) = []
      by rw [lineMap_no_nl sigLine t1 hnl, sigLine_of_cond hS]; rfl]
    rfl
  have hSf : "--".toList.isPrefixOf t1 = false := by
    cases hcc : "--".toList.isPrefixOf t1
    · rfl
    · exact absurd hcc hS
  rw [lineMap_no_nl sigLine t1 hnl, sigLine_of_not_cond hSf]
  rw [urlSub_id hu1 hu2]
  set R := punctPass t1 with hRdef
  have hcR : CanonStr R := canon_punctPass hcanon
  rw [canon_pyStrip_eq R hcR]
  have hRne : R ≠ [] := by
    intro hcon
    have hh := punctPass_headq t1
    rw [← hRdef, hcon] at hh
    cases htc : t1 with
    | nil => exact ht1nil htc
    | cons e es =>
      rw [htc] at hh
      simp at hh
  -- second pass on R
  rw [clean_text_eval R hRne]
  rw [canon_pyStrip_eq R hcR, canon_collapse_eq R hcR]
  have hnlR : '\n' ∉ R := canon_no_nl hcR
  have hHR : headerCond R = false := by
    by_contra hcc
    rw [Bool.not_eq_false] at hcc
    unfold headerCond at hcc
    have hcond : headerCond t1 = true := by
      unfold headerCond
      rcases (Bool.or_eq_true _ _).mp hcc with hp | hrest
      · rcases (Bool.or_eq_true _ _).mp hp with hp2 | hp3
        · rcases (Bool.or_eq_true _ _).mp hp2 with hp4 | hp5
          · rw [List.isPrefixOf_iff_prefix.mpr (punctPass_pre _ (by decide)
              (by decide) (by decide) (List.isPrefixOf_iff_prefix.mp hp4))]
            simp
          · rw [List.isPrefixOf_iff_prefix.mpr (punctPass_pre _ (by decide)
              (by decide) (by decide) (List.isPrefixOf_iff_prefix.mp hp5))]
            simp
        · rw [List.isPrefixOf_iff_prefix.mpr (punctPass_pre _ (by decide)
            (by decide) (by decide) (List.isPrefixOf_iff_prefix.mp hp3))]
          simp
      · rw [List.isPrefixOf_iff_prefix.mpr (punctPass_pre _ (by decide)
          (by decide) (by decide) (List.isPrefixOf_iff_prefix.mp hrest))]
        simp
    rw [hHf] at hcond
    exact absurd hcond (by simp)
  have hSR : "--".toList.isPrefixOf R = false := by
    by_contra hcc
    rw [Bool.not_eq_false] at hcc
    have hpre := List.isPrefixOf_iff_prefix.mp hcc
    have hpre2 := punctPass_pre _ (by decide) (by decide) (by decide) hpre
    have hres := List.isPrefixOf_iff_prefix.mpr hpre2
    rw [hSf] at hres
    exact absurd hres (by simp)
  rw [lineMap_no_nl headerLine R hnlR, headerLine_of_not_cond hHR]
  rw [lineMap_no_nl sigLine R hnlR, sigLine_of_not_cond hSR]
  have huR1 : ¬ ("http://".toList <:+: R) := by
    intro hcon
    exact hu1 (punctPass_occ _ (by decide) (by decide) (by decide) (by decide) hcon)
  have huR2 : ¬ ("https://".toList <:+: R) := by
    intro hcon
    exact hu2 (punctPass_occ _ (by decide) (by decide) (by decide) (by decide) hcon)
  rw [urlSub_id huR1 huR2]
  rw [hRdef, punctPass_idem t1, ← hRdef]
  exact canon_pyStrip_eq R hcR

/-- JSON values as produced by `json.loads`: null, booleans, numbers
(modelled as rationals), strings, arrays and objects (association lists with
distinct keys, as Python dicts). -/
inductive JVal where
  | jnull
  | jbool (b : Bool)
  | jnum (q : ℚ)
  | jstr (s : String)
  | jarr (xs : List JVal)
  | jobj (kvs : List (String × JVal))

/-- Optional sign at the start of a numeric literal. -/
def parseSign : Str → Bool × Str
  | '+' :: r => (false, r)
  | '-' :: r => (true, r)
  | s => (false, s)

def isDigit (c : Char) : Bool := '0' ≤ c && c ≤ '9'

def digitsVal (ds : Str) : ℕ := ds.foldl (fun a c => 10 * a + (c.toNat - '0'.toNat)) 0

/-- Model of Python `float(string)` on finite decimal literals: optional
surrounding whitespace, optional sign, integer and/or fractional digits,
optional exponent.  (`inf`/`nan` literals are outside the rational model and
underscore separators are not modelled.) -/
def parseFloatQ (s : Str) : Option ℚ :=
  let t := pyStrip s
  let sg := parseSign t
  let ip := sg.2.takeWhile isDigit
  let r2 := sg.2.dropWhile isDigit
  let fpr :=
    match r2 with
    | '.' :: rr => (rr.takeWhile isDigit, rr.dropWhile isDigit)
    | _ => (([] : Str), r2)
  if ip = [] ∧ fpr.1 = [] then none
  else
    let mant : ℚ := (digitsVal ip : ℚ) + (digitsVal fpr.1 : ℚ) / ((10 : ℚ) ^ fpr.1.length)
    match fpr.2 with
    | [] => some ((if sg.1 then -1 else 1) * mant)
    | e :: rr =>
      if e = 'e' ∨ e = 'E' then
        let esg := parseSign rr
        let ed := esg.2.takeWhile isDigit
        let r5 := esg.2.dropWhile isDigit
        if ed = [] ∨ r5 ≠ [] then none
        else some ((if sg.1 then -1 else 1) * mant *
          (10 : ℚ) ^ (if esg.1 then -(digitsVal ed : ℤ) else (digitsVal ed : ℤ)))
      else none

/-- Model of Python `float(x)` on JSON-decoded values: numbers and booleans
convert, numeric strings are parsed, everything else (null, lists, dicts)
raises and is modelled as `none`. -/
def pyFloat : JVal → Option ℚ
  | JVal.jnum q => some q
  | JVal.jbool b => some (if b then 1 else 0)
  | JVal.jstr s => parseFloatQ s.toList
  | _ => none

/-- Python dict lookup on the decoded JSON object. -/
def lookupKey (kvs : List (String × JVal)) (key : String) : Option JVal :=
  (kvs.find? (fun kv => kv.1 == key)).map (fun kv => kv.2)

def valid_sentiments : List String := ["anger", "confusion", "delight", "neutral"]

/-- Classification result as written to the store (`summary` and the
`keywords` elements are passed through untouched, so they stay JSON
values). -/
structure SResult where
  sentiment : String
  summary : JVal
  confidence : ℚ
  keywords : List JVal

/-- Sentiment coercion of the validation block: a value `not in
valid_sentiments` (in particular any non-string) becomes `'neutral'`. -/
def coerceSentiment (v : JVal) : String :=
  match v with
  | JVal.jstr s => if s ∈ valid_sentiments then s else "neutral"
  | _ => "neutral"

/-- Confidence coercion of the validation block:
`max(0.0, min(1.0, float(v)))`, and `0.5` when `float` raises. -/
def coerceConfidence (v : JVal) : ℚ :=
  match pyFloat v with
  | some q => max 0 (min 1 q)
  | none => (1 : ℚ) / 2

/-- Keywords coercion of the validation block: a non-list becomes `[]`,
then the first 5 elements are kept. -/
def coerceKeywords (v : JVal) : List JVal :=
  (match v with
  | JVal.jarr xs => xs
  | _ => []).take 5

/-- Model of the validation block of `analyze_sentiment_with_gemini`
(lines 164-186): the four required keys must be present (checked in order,
first missing key raises); then the sentiment, confidence and keywords
coercions above are applied, while summary passes through untouched. -/
def validateResult (kvs : List (String × JVal)) : Except String SResult :=
  if (lookupKey kvs "sentiment").isNone then
    Except.error "Missing required key: sentiment"
  else if (lookupKey kvs "summary").isNone then
    Except.error "Missing required key: summary"
  else if (lookupKey kvs "confidence").isNone then
    Except.error "Missing required key: confidence"
  else if (lookupKey kvs "keywords").isNone then
    Except.error "Missing required key: keywords"
  else
    Except.ok ⟨coerceSentiment ((lookupKey kvs "sentiment").getD JVal.jnull),
      (lookupKey kvs "summary").getD JVal.jnull,
      coerceConfidence ((lookupKey kvs "confidence").getD JVal.jnull),
      coerceKeywords ((lookupKey kvs "keywords").getD JVal.jnull)⟩

/-- Model of the response-text cleanup before `json.loads` (lines 154-159):
strip, drop a leading ` ```json ` fence (7 characters), drop a trailing
` ``` ` fence (3 characters; Python `[:-3]`). -/
def cleanResponse (s : Str) : Str :=
  let t := pyStrip s
  let t2 := if "```json".toList.isPrefixOf t then t.drop 7 else t
  if "```".toList.isSuffixOf t2 then t2.take (t2.length - 3) else t2

/-- Outcome of one `model.generate_content` call: a raised transport error,
or a response whose `.text` is the given string (the empty string models a
falsy `response.text`). -/
inductive GenOutcome where
  | transportErr
  | text (t : Str)

/-- One attempt of the body of `analyze_sentiment_with_gemini`: clean the
message, short-circuit when the cleaned text is shorter than 10 characters,
otherwise consult the model (`o`), reject empty text, strip fences, decode
with `loads` (the model of `json.loads`) and validate.  A decoded non-object
raises at the subsequent key checks or subscripting, collapsed here into a
single error outcome. -/
def attemptAnalyze (loads : Str → Option JVal) (msg : Str) (o : GenOutcome) :
    Except String SResult :=
  let cleaned := clean_text msg
  if cleaned.length < 10 then
    Except.ok ⟨"neutral", JVal.jstr "Message too short for analysis", 1 / 2, []⟩
  else
    match o with
    | GenOutcome.transportErr => Except.error "transport error in generate_content"
    | GenOutcome.text t =>
      if t = [] then Except.error "Empty response from Gemini API"
      else
        match loads (cleanResponse t) with
        | none => Except.error "Invalid JSON response from Gemini"
        | some (JVal.jobj kvs) => validateResult kvs
        | some _ => Except.error "TypeError on non-object JSON result"

/-- The wait computed by `retrying` for `wait_exponential_multiplier=1000`
after the given attempt number, in milliseconds: `2 ** attempt * 1000`
capped at the library default `MAX_WAIT = 1073741823`. -/
def expWaitMs (attemptNumber : ℕ) : ℕ := min (2 ^ attemptNumber * 1000) 1073741823

/-- The loop of the `@retry(stop_max_attempt_number=3, ...)` decorator:
run attempt `attemptNumber`; on failure, if attempts remain (`left`), sleep
the exponential wait and retry.  Returns the final outcome, the number of
attempts made, and the list of sleeps performed (in order). -/
def retryFrom (f : ℕ → Except String SResult) (attemptNumber : ℕ) :
    ℕ → Except String SResult × ℕ × List ℕ
  | 0 => (f attemptNumber, 1, [])
  | left + 1 =>
    match f attemptNumber with
    | Except.ok r => (Except.ok r, 1, [])
    | Except.error _ =>
      let res := retryFrom f (attemptNumber + 1) left
      (res.1, res.2.1 + 1, expWaitMs attemptNumber :: res.2.2)

/-- Model of `analyze_sentiment_with_gemini`: the attempt body wrapped in
the retry decorator, attempt numbers starting at 1 and at most 3 attempts
(`stop_max_attempt_number=3`, so 2 further attempts after the first).
`oracle n` is the outcome of the n-th `generate_content` call. -/
def analyze_sentiment_with_gemini (loads : Str → Option JVal)
    (oracle : ℕ → GenOutcome) (msg : Str) : Except String SResult × ℕ × List ℕ :=
  retryFrom (fun n => attemptAnalyze loads msg (oracle n)) 1 2

/-- A stored ticket (the fields the worker reads; `ticket.get('message','')`
is modelled by `message` defaulting to the empty string at construction). -/
structure Ticket where
  id : String
  message : String
  status : String
  createdAt : ℤ

/-- The field delta written by one `update_ticket_status` call: the
`update_data` dict always contains `status` and
`processed_timestamp: SERVER_TIMESTAMP` (recorded by `setsProcessedAt`),
and contains the four classification fields exactly when `sentiment_data`
is passed (truthy). -/
structure UpdateDelta where
  status : String
  setsProcessedAt : Bool
  classification : Option SResult

/-- Model of `update_ticket_status` (store writes always succeed in the
model; the delta is what is written). -/
def update_ticket_status (status : String) (sentimentData : Option SResult) :
    UpdateDelta :=
  { status := status, setsProcessedAt := true, classification := sentimentData }

/-- Observable events of batch processing: a store update, one classifier
attempt, or a sleep (milliseconds). -/
inductive Ev where
  | upd (id : String) (delta : UpdateDelta)
  | attempt
  | sleepMs (n : ℕ)

/-- One iteration of the `for ticket in tickets` loop of
`process_tickets_batch`: empty/whitespace-only message goes straight to
`error`; otherwise mark `processing`, classify (with retries inside
`analyze`), then write the terminal status; `time.sleep(2)` follows a
success; any classification failure is caught and the ticket is marked
`error`.  Returns the event trace and whether `processed_count` /
`error_count` are incremented. -/
def processTicket (analyze : String → Except String SResult × ℕ × List ℕ)
    (t : Ticket) : List Ev × Bool × Bool :=
  if pyStrip t.message.toList = [] then
    ([Ev.upd t.id (update_ticket_status "error" none)], false, true)
  else
    match analyze t.message with
    | (Except.ok r, n, ds) =>
      ([Ev.upd t.id (update_ticket_status "processing" none)] ++
        List.replicate n Ev.attempt ++ ds.map Ev.sleepMs ++
        [Ev.upd t.id (update_ticket_status "processed" (some r)), Ev.sleepMs 2000],
        true, false)
    | (Except.error _, n, ds) =>
      ([Ev.upd t.id (update_ticket_status "processing" none)] ++
        List.replicate n Ev.attempt ++ ds.map Ev.sleepMs ++
        [Ev.upd t.id (update_ticket_status "error" none)], false, true)

/-- Model of `get_pending_tickets`: Firestore
`.where('status', '==', 'new').limit(batch_size)`.  The store is the
collection in its default enumeration order (document id order); the query
filters and truncates but applies no `order_by`. -/
def get_pending_tickets (store : List Ticket) (batchSize : ℕ) : List Ticket :=
  (store.filter (fun t => t.status == "new")).take batchSize

/-- One loop step of `process_tickets_batch`: append the ticket's events
and bump `processed_count` / `error_count`. -/
def batchStep (analyze : String → Except String SResult × ℕ × List ℕ)
    (acc : List Ev × ℕ × ℕ) (t : Ticket) : List Ev × ℕ × ℕ :=
  let one := processTicket analyze t
  (acc.1 ++ one.1,
   acc.2.1 + (if one.2.1 then 1 else 0),
   acc.2.2 + (if one.2.2 then 1 else 0))

/-- Model of `process_tickets_batch`: fetch pending tickets, process them
strictly sequentially, accumulating the event trace and the two counters.
The last component models the Python return value: the function body has no
`return` statement, so it returns `None`. -/
def process_tickets_batch (analyze : String → Except String SResult × ℕ × List ℕ)
    (store : List Ticket) (batchSize : ℕ) :
    List Ev × ℕ × ℕ × Option (ℕ × ℕ) :=
  let tickets := get_pending_tickets store batchSize
  let res := tickets.foldl (batchStep analyze) ([], 0, 0)
  (res.1, res.2.1, res.2.2, none)

/-- A processed-ticket row as read by the dashboard (the fields
`render_alerts_section` and the trend grouping use). -/
structure Row where
  sentiment : String
  timestamp : ℤ

/-- Model of `render_alerts_section` of `src/dashboard.py`.  Timestamps are
seconds, so `datetime.now(timezone.utc) - timedelta(hours=24)` is
`now - 86400`.  On an empty frame the function returns early and renders
nothing (`none`); otherwise it computes the recent anger rows (sorted by
timestamp descending), the anger share of the recent window, the level
banner actually shown (`critical` for `st.error`, `elevated` for
`st.warning`, `stable` for `st.success`), and the top 5 recent anger rows. -/
def render_alerts_section (rows : List Row) (now : ℤ) :
    Option (String × ℚ × List Row) :=
  if rows.isEmpty then none
  else
    let w := now - 86400
    let recentAnger := List.insertionSort (fun a b => b.timestamp ≤ a.timestamp)
      (rows.filter (fun r => r.sentiment == "anger" && decide (w ≤ r.timestamp)))
    let recentTotal := (rows.filter (fun r => decide (w ≤ r.timestamp))).length
    let ratioVal : ℚ :=
      if recentTotal > 0 then (recentAnger.length : ℚ) / (recentTotal : ℚ) else 0
    let level :=
      if ratioVal ≥ 3 / 10 then "critical"
      else if ratioVal ≥ 2 / 10 then "elevated"
      else "stable"
    some (level, ratioVal, recentAnger.take 5)

/-- Calendar date of a timestamp (`df['timestamp'].dt.date`), modelled as
the epoch day via floor division. -/
def dateOf (ts : ℤ) : ℤ := Int.fdiv ts 86400

/-- Lexicographic order on character lists (model of Python string
ordering, used by pandas when sorting group keys). -/
def lexLe : Str → Str → Bool
  | [], _ => true
  | _ :: _, [] => false
  | a :: xs, b :: ys => if a < b then true else if a = b then lexLe xs ys else false

def strLeB (a b : String) : Bool := lexLe a.toList b.toList

/-- Sorted distinct values (pandas group keys are the observed values,
sorted ascending). -/
def sortedDedupInt (l : List ℤ) : List ℤ := List.insertionSort (· ≤ ·) l.dedup

def trendDates (rows : List Row) : List ℤ :=
  sortedDedupInt (rows.map (fun r => dateOf r.timestamp))

def trendSents (rows : List Row) : List String :=
  List.insertionSort (fun a b => strLeB a b = true) (rows.map (fun r => r.sentiment)).dedup

/-- Model of the `daily` frame of `render_sentiment_trends`:
`df.groupby(['date', 'sentiment']).size().unstack(fill_value=0)`.
Rows are the observed dates (sorted ascending), columns the observed
sentiments (sorted ascending), and each cell the count of tickets with that
date and sentiment, `0` for combinations that never occur among the
observed dates and sentiments. -/
def dailyTrend (rows : List Row) : List (ℤ × List (String × ℕ)) :=
  (trendDates rows).map (fun d => (d, (trendSents rows).map (fun s =>
    (s, (rows.filter (fun r => dateOf r.timestamp == d && r.sentiment == s)).length))))

def isAttemptEv : Ev → Bool
  | Ev.attempt => true
  | _ => false

/-- `countP` of an update-event with the given status. -/
def isUpdWith (s : String) : Ev → Bool
  | Ev.upd _ d => d.status == s
  | _ => false

lemma strip_nil_of_all_ws {s : Str} (h : ∀ c ∈ s, pyWs c = true) : pyStrip s = [] := by
  have hdrop : s.dropWhile pyWs = [] := by
    induction s with
    | nil => rfl
    | cons a rest ih =>
      rw [List.dropWhile_cons_of_pos (h a (List.mem_cons_self a rest))]
      exact ih (fun c hc => h c (List.mem_cons_of_mem a hc))
  unfold pyStrip
  rw [hdrop]
  rfl

lemma clean_text_of_strip_nil {x : Str} (h : pyStrip x = []) : clean_text x = [] := by
  by_cases hx : x = []
  · subst hx; rfl
  · rw [clean_text_eval x hx, h]
    rfl

/- ===================== C1 ===================== -/

/-- C1: for every ticket whose message is empty or whitespace-only,
processing the ticket (the loop body of `process_tickets_batch`) goes
directly to status `error`: the trace is exactly one `error` update, no
`processing` update ever occurs, the error counter (not the processed one)
is bumped, and the classifier is never invoked (zero attempt events, for
every classifier behaviour `analyze`). -/
theorem c1_empty_message_to_error
    (analyze : String → Except String SResult × ℕ × List ℕ) (t : Ticket)
    (h : ∀ c ∈ t.message.toList, pyWs c = true) :
    processTicket analyze t =
      ([Ev.upd t.id (update_ticket_status "error" none)], false, true) ∧
    (∀ i d, Ev.upd i d ∈ (processTicket analyze t).1 → d.status ≠ "processing") ∧
    (processTicket analyze t).1.countP isAttemptEv = 0 := by
  have hstrip : pyStrip t.message.toList = [] := strip_nil_of_all_ws h
  have heq : processTicket analyze t =
      ([Ev.upd t.id (update_ticket_status "error" none)], false, true) := by
    unfold processTicket
    rw [if_pos hstrip]
  refine ⟨heq, ?_, ?_⟩
  · intro i d hd
    rw [heq] at hd
    simp at hd
    rw [hd.2]
    intro hcon
    simp [update_ticket_status] at hcon
  · rw [heq]
    rfl

/-- Witness for C1 at a concrete whitespace-only ticket. -/
theorem c1_witness :
    processTicket (fun _ => (Except.error "x", 0, [])) ⟨"t1", "  ", "new", 0⟩ =
      ([Ev.upd "t1" (update_ticket_status "error" none)], false, true) ∧
    (∀ i d, Ev.upd i d ∈ (processTicket (fun _ => (Except.error "x", 0, []))
      ⟨"t1", "  ", "new", 0⟩).1 → d.status ≠ "processing") ∧
    (processTicket (fun _ => (Except.error "x", 0, []))
      ⟨"t1", "  ", "new", 0⟩).1.countP isAttemptEv = 0 :=
  c1_empty_message_to_error (fun _ => (Except.error "x", 0, []))
    ⟨"t1", "  ", "new", 0⟩ (by decide)

/- ===================== C2 ===================== -/

lemma retryFrom_all_fail (f : ℕ → Except String SResult)
    (h1 : ∃ e, f 1 = Except.error e) (h2 : ∃ e, f 2 = Except.error e)
    (h3 : ∃ e, f 3 = Except.error e) :
    ∃ e, retryFrom f 1 2 = (Except.error e, 3, [expWaitMs 1, expWaitMs 2]) := by
  obtain ⟨e1, he1⟩ := h1
  obtain ⟨e2, he2⟩ := h2
  obtain ⟨e3, he3⟩ := h3
  refine ⟨e3, ?_⟩
  show retryFrom f 1 (1 + 1) = _
  rw [show retryFrom f 1 (1 + 1) =
      match f 1 with
      | Except.ok r => (Except.ok r, 1, [])
      | Except.error _ =>
        let res := retryFrom f 2 1
        (res.1, res.2.1 + 1, expWaitMs 1 :: res.2.2) from rfl]
  rw [he1]
  show (let res := retryFrom f 2 1
    ((res.1, res.2.1 + 1, expWaitMs 1 :: res.2.2) :
      Except String SResult × ℕ × List ℕ)) = _
  rw [show retryFrom f 2 (0 + 1) =
      match f 2 with
      | Except.ok r => (Except.ok r, 1, [])
      | Except.error _ =>
        let res := retryFrom f 3 0
        (res.1, res.2.1 + 1, expWaitMs 2 :: res.2.2) from rfl]
  rw [he2]
  show ((retryFrom f 3 0).1, (retryFrom f 3 0).2.1 + 1 + 1,
    expWaitMs 1 :: expWaitMs 2 :: (retryFrom f 3 0).2.2) = _
  rw [show retryFrom f 3 0 = (f 3, 1, []) from rfl, he3]

lemma attempt_fails (loads : Str → Option JVal) (msg : Str) (o : GenOutcome)
    (hlen : ¬ (clean_text msg).length < 10)
    (hfail : o = GenOutcome.transportErr ∨
      ∃ txt, o = GenOutcome.text txt ∧ txt ≠ [] ∧ loads (cleanResponse txt) = none) :
    ∃ e, attemptAnalyze loads msg o = Except.error e := by
  unfold attemptAnalyze
  rw [if_neg hlen]
  rcases hfail with hcase | ⟨txt, htxt, hne, hl⟩
  · subst hcase
    exact ⟨_, rfl⟩
  · subst htxt
    refine ⟨"Invalid JSON response from Gemini", ?_⟩
    simp [hne, hl]

/-- C2: when the external classifier fails on every attempt (a transport
failure of `generate_content` or a JSON-decode failure of the response
text), and the message actually reaches the classifier (cleaned length at
least 10), `analyze_sentiment_with_gemini` makes exactly 3 attempts with
exponentially growing (doubling) waits of 2000 ms and 4000 ms between them,
ends in failure, and processing such a ticket marks it `processing` and
then terminally `error`, bumping the error counter. -/
theorem c2_classifier_failure_retries (loads : Str → Option JVal)
    (oracle : ℕ → GenOutcome) (msg : Str)
    (hlen : ¬ (clean_text msg).length < 10)
    (hfail : ∀ n, oracle n = GenOutcome.transportErr ∨
      ∃ txt, oracle n = GenOutcome.text txt ∧ txt ≠ [] ∧
        loads (cleanResponse txt) = none) :
    (analyze_sentiment_with_gemini loads oracle msg).2.1 = 3 ∧
    (analyze_sentiment_with_gemini loads oracle msg).2.2 = [2000, 4000] ∧
    (∃ e, (analyze_sentiment_with_gemini loads oracle msg).1 = Except.error e) ∧
    (∀ t : Ticket, t.message.toList = msg →
      ∃ evs, processTicket
          (fun m => analyze_sentiment_with_gemini loads oracle m.toList) t =
          (evs, false, true) ∧
        evs.getLast? = some (Ev.upd t.id (update_ticket_status "error" none)) ∧
        evs.countP isAttemptEv = 3 ∧
        Ev.upd t.id (update_ticket_status "processing" none) ∈ evs) := by
  obtain ⟨e, hrun⟩ := retryFrom_all_fail
    (fun n => attemptAnalyze loads msg (oracle n))
    (attempt_fails loads msg (oracle 1) hlen (hfail 1))
    (attempt_fails loads msg (oracle 2) hlen (hfail 2))
    (attempt_fails loads msg (oracle 3) hlen (hfail 3))
  have hrun' : analyze_sentiment_with_gemini loads oracle msg =
      (Except.error e, 3, [expWaitMs 1, expWaitMs 2]) := hrun
  have hwaits : ([expWaitMs 1, expWaitMs 2] : List ℕ) = [2000, 4000] := by decide
  refine ⟨by rw [hrun'], by rw [hrun', hwaits], ⟨e, by rw [hrun']⟩, ?_⟩
  intro t hmsg
  have hstrip : pyStrip t.message.toList ≠ [] := by
    intro hcon
    rw [hmsg] at hcon
    exact hlen (by rw [clean_text_of_strip_nil hcon]; decide)
  refine ⟨[Ev.upd t.id (update_ticket_status "processing" none)] ++
    List.replicate 3 Ev.attempt ++ [2000, 4000].map Ev.sleepMs ++
    [Ev.upd t.id (update_ticket_status "error" none)], ?_, ?_, ?_, ?_⟩
  · unfold processTicket
    rw [if_neg hstrip]
    have hcall : analyze_sentiment_with_gemini loads oracle t.message.toList =
        (Except.error e, 3, [2000, 4000]) := by
      rw [hmsg, hrun', hwaits]
    rw [show (fun m => analyze_sentiment_with_gemini loads oracle m.toList)
      t.message = (Except.error e, 3, [2000, 4000]) from hcall]
  · simp [List.getLast?_append]
  · rfl
  · simp

/-- Witness for C2: an always-failing transport, a decoder that never
succeeds, and a 10-character message. -/
theorem c2_witness :
    (analyze_sentiment_with_gemini (fun _ => none) (fun _ => GenOutcome.transportErr)
      "0123456789".toList).2.1 = 3 ∧
    (analyze_sentiment_with_gemini (fun _ => none) (fun _ => GenOutcome.transportErr)
      "0123456789".toList).2.2 = [2000, 4000] ∧
    (∃ e, (analyze_sentiment_with_gemini (fun _ => none)
      (fun _ => GenOutcome.transportErr) "0123456789".toList).1 = Except.error e) ∧
    (∀ t : Ticket, t.message.toList = "0123456789".toList →
      ∃ evs, processTicket (fun m => analyze_sentiment_with_gemini (fun _ => none)
          (fun _ => GenOutcome.transportErr) m.toList) t = (evs, false, true) ∧
        evs.getLast? = some (Ev.upd t.id (update_ticket_status "error" none)) ∧
        evs.countP isAttemptEv = 3 ∧
        Ev.upd t.id (update_ticket_status "processing" none) ∈ evs) :=
  c2_classifier_failure_retries (fun _ => none) (fun _ => GenOutcome.transportErr)
    "0123456789".toList (by decide) (fun _ => Or.inl rfl)

/- ===================== C3 ===================== -/

/-- C3 counterexample: `clean_text` is not idempotent.  On
`"a http://x b"` the URL-removal step leaves a double space
(`"a  b"`), which only the whitespace collapse of a second pass removes, so
`clean_text (clean_text x) ≠ clean_text x`. -/
theorem c3_counterexample :
    clean_text (clean_text "a http://x b".toList) ≠
      clean_text "a http://x b".toList ∧
    clean_text "a http://x b".toList = "a  b".toList ∧
    clean_text (clean_text "a http://x b".toList) = "a b".toList := by
  refine ⟨?_, by decide, by decide⟩
  decide

/-- C3 amended: the normalizer `clean_text` is idempotent on every input
that contains no URL-scheme occurrence (no `http://` and no `https://`
substring). -/
theorem c3_idempotent_amended (x : Str)
    (h1 : ¬ ("http://".toList <:+: x)) (h2 : ¬ ("https://".toList <:+: x)) :
    clean_text (clean_text x) = clean_text x :=
  clean_text_idem_main x h1 h2

/-- Witness for C3 amended at a concrete URL-free input. -/
theorem c3_witness :
    clean_text (clean_text "  From  hello!!  world...  ".toList) =
      clean_text "  From  hello!!  world...  ".toList :=
  c3_idempotent_amended "  From  hello!!  world...  ".toList
    (by decide) (by decide)

/- ===================== C4 ===================== -/

/-- C4: for every successfully decoded classifier response object that
contains all four required keys, the validation block succeeds and
post-processes the result so that: a sentiment that is not one of the four
valid strings (including any non-string value) is replaced by `neutral`;
confidence is the clamp of `float(confidence)` into `[0, 1]`, and `0.5`
when not parseable as a number, hence always within `[0, 1]`; keywords is
replaced by `[]` when not a list and is truncated to its first 5 elements
in every case, hence always of length at most 5. -/
theorem c4_validation_coercions (kvs : List (String × JVal)) (vs vm vc vk : JVal)
    (hs : lookupKey kvs "sentiment" = some vs)
    (hm : lookupKey kvs "summary" = some vm)
    (hc : lookupKey kvs "confidence" = some vc)
    (hk : lookupKey kvs "keywords" = some vk) :
    ∃ r : SResult, validateResult kvs = Except.ok r ∧ r.summary = vm ∧
      (∀ s, vs = JVal.jstr s → s ∉ valid_sentiments → r.sentiment = "neutral") ∧
      ((∀ s, vs ≠ JVal.jstr s) → r.sentiment = "neutral") ∧
      (∀ q, pyFloat vc = some q → r.confidence = max 0 (min 1 q)) ∧
      (pyFloat vc = none → r.confidence = 1 / 2) ∧
      0 ≤ r.confidence ∧ r.confidence ≤ 1 ∧
      (∀ xs, vk = JVal.jarr xs → r.keywords = xs.take 5) ∧
      ((∀ xs, vk ≠ JVal.jarr xs) → r.keywords = []) ∧
      r.keywords.length ≤ 5 := by
  have hval : validateResult kvs = Except.ok
      ⟨coerceSentiment vs, vm, coerceConfidence vc, coerceKeywords vk⟩ := by
    unfold validateResult
    simp only [hs, hm, hc, hk, Option.isNone_some, Bool.false_eq_true, if_false,
      Option.getD_some]
  refine ⟨_, hval, rfl, ?_, ?_, ?_, ?_, ?_, ?_, ?_, ?_, ?_⟩
  · intro s hvs hnot
    rw [hvs]
    show (if s ∈ valid_sentiments then s else "neutral") = "neutral"
    rw [if_neg hnot]
  · intro hall
    cases vs with
    | jstr s => exact absurd rfl (hall s)
    | jnull => rfl
    | jbool b => rfl
    | jnum q => rfl
    | jarr xs => rfl
    | jobj o => rfl
  · intro q hq
    show coerceConfidence vc = max 0 (min 1 q)
    unfold coerceConfidence
    rw [hq]
  · intro hq
    show coerceConfidence vc = 1 / 2
    unfold coerceConfidence
    rw [hq]
  · show (0 : ℚ) ≤ coerceConfidence vc
    unfold coerceConfidence
    cases hfc : pyFloat vc with
    | none => norm_num
    | some q => exact le_max_left 0 _
  · show coerceConfidence vc ≤ 1
    unfold coerceConfidence
    cases hfc : pyFloat vc with
    | none => norm_num
    | some q => exact max_le (by norm_num) (min_le_left 1 q)
  · intro xs hxs
    rw [hxs]
    rfl
  · intro hall
    cases vk with
    | jarr xs => exact absurd rfl (hall xs)
    | jnull => rfl
    | jbool b => rfl
    | jnum q => rfl
    | jstr s => rfl
    | jobj o => rfl
  · show (coerceKeywords vk).length ≤ 5
    unfold coerceKeywords
    exact List.length_take_le 5 _

/-- Witness for C4 at a concrete response with an invalid sentiment, an
out-of-range confidence, and non-list keywords. -/
theorem c4_witness :
    ∃ r : SResult, validateResult
        [("sentiment", JVal.jstr "joy"), ("summary", JVal.jstr "s"),
         ("confidence", JVal.jnum (3 / 2)), ("keywords", JVal.jnull)] =
        Except.ok r ∧ r.summary = JVal.jstr "s" ∧
      (∀ s, JVal.jstr "joy" = JVal.jstr s → s ∉ valid_sentiments →
        r.sentiment = "neutral") ∧
      ((∀ s, JVal.jstr "joy" ≠ JVal.jstr s) → r.sentiment = "neutral") ∧
      (∀ q, pyFloat (JVal.jnum (3 / 2)) = some q → r.confidence = max 0 (min 1 q)) ∧
      (pyFloat (JVal.jnum (3 / 2)) = none → r.confidence = 1 / 2) ∧
      0 ≤ r.confidence ∧ r.confidence ≤ 1 ∧
      (∀ xs, JVal.jnull = JVal.jarr xs → r.keywords = xs.take 5) ∧
      ((∀ xs, JVal.jnull ≠ JVal.jarr xs) → r.keywords = []) ∧
      r.keywords.length ≤ 5 :=
  c4_validation_coercions _ (JVal.jstr "joy") (JVal.jstr "s") (JVal.jnum (3 / 2))
    JVal.jnull rfl rfl rfl rfl

/- ===================== C5 ===================== -/

/-- C5 counterexample: on an empty ticket collection
`render_alerts_section` returns early and renders nothing, so no
`Stable, ratio = 0` report is produced, contradicting the claim at the
empty collection. -/
theorem c5_counterexample :
    render_alerts_section ([] : List Row) 0 = none ∧
    ¬ ∃ top, render_alerts_section ([] : List Row) 0 = some ("stable", 0, top) := by
  refine ⟨rfl, ?_⟩
  intro ⟨top, h⟩
  simp [render_alerts_section] at h

/-- Level-banner characterization for the alert if-chain. -/
lemma levelString_iffs (q : ℚ) :
    ((if 3 / 10 ≤ q then "critical" else if 2 / 10 ≤ q then "elevated" else "stable")
        = "critical" ↔ 3 / 10 ≤ q) ∧
    ((if 3 / 10 ≤ q then "critical" else if 2 / 10 ≤ q then "elevated" else "stable")
        = "elevated" ↔ (2 / 10 ≤ q ∧ q < 3 / 10)) ∧
    ((if 3 / 10 ≤ q then "critical" else if 2 / 10 ≤ q then "elevated" else "stable")
        = "stable" ↔ q < 2 / 10) := by
  by_cases h3 : 3 / 10 ≤ q
  · rw [if_pos h3]
    exact ⟨⟨fun _ => h3, fun _ => rfl⟩,
      ⟨fun hcon => absurd hcon (by decide),
        fun hc => absurd h3 (not_le.mpr hc.2)⟩,
      ⟨fun hcon => absurd hcon (by decide),
        fun hlt => absurd h3 (not_le.mpr (lt_of_lt_of_le hlt (by norm_num)))⟩⟩
  · rw [if_neg h3]
    by_cases h2 : 2 / 10 ≤ q
    · rw [if_pos h2]
      exact ⟨⟨fun hcon => absurd hcon (by decide), fun hc => absurd hc h3⟩,
        ⟨fun _ => ⟨h2, lt_of_not_le h3⟩, fun _ => rfl⟩,
        ⟨fun hcon => absurd hcon (by decide), fun hlt => absurd hlt (not_lt.mpr h2)⟩⟩
    · rw [if_neg h2]
      exact ⟨⟨fun hcon => absurd hcon (by decide), fun hc => absurd hc h3⟩,
        ⟨fun hcon => absurd hcon (by decide), fun hc => absurd hc.1 h2⟩,
        ⟨fun _ => lt_of_not_le h2, fun _ => rfl⟩⟩

/-- C5 amended: for every nonempty ticket collection and time `now`, the
alert section computes the ratio as the number of anger tickets in the
trailing 24h window divided by the number of all tickets in that window
(`0` when the window is empty), and reports `critical` exactly when
`ratio ≥ 0.30`, `elevated` exactly when `0.20 ≤ ratio < 0.30`, and
`stable` otherwise; an empty window yields `stable` with ratio `0`.
(An empty collection yields no report at all, per the counterexample.) -/
theorem c5_alert_levels_amended (rows : List Row) (now : ℤ) (hne : rows ≠ []) :
    ∃ level r top, render_alerts_section rows now = some (level, r, top) ∧
      r = (if 0 < (rows.filter (fun x => decide (now - 86400 ≤ x.timestamp))).length
        then ((rows.filter (fun x => x.sentiment == "anger" &&
            decide (now - 86400 ≤ x.timestamp))).length : ℚ) /
          ((rows.filter (fun x => decide (now - 86400 ≤ x.timestamp))).length : ℚ)
        else 0) ∧
      ((level = "critical") ↔ 3 / 10 ≤ r) ∧
      ((level = "elevated") ↔ (2 / 10 ≤ r ∧ r < 3 / 10)) ∧
      ((level = "stable") ↔ r < 2 / 10) ∧
      ((rows.filter (fun x => decide (now - 86400 ≤ x.timestamp))).length = 0 →
        level = "stable" ∧ r = 0) := by
  have hempty : rows.isEmpty = false := by
    cases rows with
    | nil => exact absurd rfl hne
    | cons a l => rfl
  set wlen := (rows.filter (fun x => decide (now - 86400 ≤ x.timestamp))).length
    with hwlen
  set alen := (rows.filter (fun x => x.sentiment == "anger" &&
    decide (now - 86400 ≤ x.timestamp))).length with halen
  set rq : ℚ := if 0 < wlen then (alen : ℚ) / (wlen : ℚ) else 0 with hrq
  have hmain : render_alerts_section rows now = some
      (if 3 / 10 ≤ rq then "critical" else if 2 / 10 ≤ rq then "elevated"
        else "stable",
       rq,
       (List.insertionSort (fun a b => b.timestamp ≤ a.timestamp)
         (rows.filter (fun x => x.sentiment == "anger" &&
           decide (now - 86400 ≤ x.timestamp)))).take 5) := by
    have hsortlen : (List.insertionSort (fun a b => b.timestamp ≤ a.timestamp)
        (rows.filter (fun x => x.sentiment == "anger" &&
          decide (now - 86400 ≤ x.timestamp)))).length = alen :=
      (List.perm_insertionSort _ _).length_eq
    unfold render_alerts_section
    rw [hempty]
    simp only [Bool.false_eq_true, if_false]
    rw [show ((List.insertionSort (fun a b => b.timestamp ≤ a.timestamp)
        (rows.filter (fun x => x.sentiment == "anger" &&
          decide (now - 86400 ≤ x.timestamp)))).length : ℚ) = (alen : ℚ)
      from by rw [hsortlen]]
  obtain ⟨hiff1, hiff2, hiff3⟩ := levelString_iffs rq
  refine ⟨_, rq, _, hmain, hrq, hiff1, hiff2, hiff3, ?_⟩
  intro hw
  have hz : rq = 0 := by
    rw [hrq, if_neg (by omega)]
  constructor
  · rw [hz]
    rw [if_neg (by norm_num), if_neg (by norm_num)]
  · exact hz

/-- Witness for C5 amended at a concrete nonempty collection. -/
theorem c5_witness :
    ∃ level r top, render_alerts_section
        [⟨"anger", 100⟩, ⟨"neutral", 100⟩, ⟨"neutral", 100⟩] 200 =
        some (level, r, top) ∧
      r = (if 0 < (([⟨"anger", 100⟩, ⟨"neutral", 100⟩, ⟨"neutral", 100⟩] :
            List Row).filter (fun x => decide ((200 : ℤ) - 86400 ≤ x.timestamp))).length
        then ((([⟨"anger", 100⟩, ⟨"neutral", 100⟩, ⟨"neutral", 100⟩] :
            List Row).filter (fun x => x.sentiment == "anger" &&
            decide ((200 : ℤ) - 86400 ≤ x.timestamp))).length : ℚ) /
          ((([⟨"anger", 100⟩, ⟨"neutral", 100⟩, ⟨"neutral", 100⟩] :
            List Row).filter (fun x =>
            decide ((200 : ℤ) - 86400 ≤ x.timestamp))).length : ℚ)
        else 0) ∧
      ((level = "critical") ↔ 3 / 10 ≤ r) ∧
      ((level = "elevated") ↔ (2 / 10 ≤ r ∧ r < 3 / 10)) ∧
      ((level = "stable") ↔ r < 2 / 10) ∧
      ((([⟨"anger", 100⟩, ⟨"neutral", 100⟩, ⟨"neutral", 100⟩] :
          List Row).filter (fun x =>
          decide ((200 : ℤ) - 86400 ≤ x.timestamp))).length = 0 →
        level = "stable" ∧ r = 0) :=
  c5_alert_levels_amended [⟨"anger", 100⟩, ⟨"neutral", 100⟩, ⟨"neutral", 100⟩] 200
    (by simp)

/- ===================== C6 ===================== -/

lemma countP_replicate_ev (p : Ev → Bool) (n : ℕ) (a : Ev) :
    (List.replicate n a).countP p = if p a then n else 0 := by
  induction n with
  | zero => simp
  | succ m ih =>
    rw [List.replicate_succ, List.countP_cons, ih]
    by_cases hp : p a
    · rw [if_pos hp, if_pos hp]
      simp [hp]
    · rw [if_neg hp, if_neg hp]
      simp [hp]

lemma countP_sleeps (p : Ev → Bool) (hp : ∀ n, p (Ev.sleepMs n) = false)
    (ds : List ℕ) : (ds.map Ev.sleepMs).countP p = 0 := by
  rw [List.countP_eq_zero]
  intro a ha
  obtain ⟨n, _, rfl⟩ := List.mem_map.mp ha
  simp [hp n]

lemma processTicket_counts (analyze : String → Except String SResult × ℕ × List ℕ)
    (t : Ticket) :
    (processTicket analyze t).1.countP (isUpdWith "processed") =
      (if (processTicket analyze t).2.1 then 1 else 0) ∧
    (processTicket analyze t).1.countP (isUpdWith "error") =
      (if (processTicket analyze t).2.2 then 1 else 0) := by
  unfold processTicket
  by_cases hstrip : pyStrip t.message.toList = []
  · rw [if_pos hstrip]
    constructor <;> rfl
  · rw [if_neg hstrip]
    rcases hana : analyze t.message with ⟨res, n, ds⟩
    cases res with
    | ok r =>
      simp only []
      constructor
      all_goals {
        rw [List.countP_append, List.countP_append, List.countP_append,
          countP_replicate_ev, countP_sleeps _ (fun _ => rfl)]
        rfl
      }
    | error e =>
      simp only []
      constructor
      all_goals {
        rw [List.countP_append, List.countP_append, List.countP_append,
          countP_replicate_ev, countP_sleeps _ (fun _ => rfl)]
        rfl
      }

lemma batch_fold_split (analyze : String → Except String SResult × ℕ × List ℕ) :
    ∀ ts : List Ticket, ∀ acc : List Ev × ℕ × ℕ,
      ts.foldl (batchStep analyze) acc =
        (acc.1 ++ (ts.foldl (batchStep analyze) ([], 0, 0)).1,
         acc.2.1 + (ts.foldl (batchStep analyze) ([], 0, 0)).2.1,
         acc.2.2 + (ts.foldl (batchStep analyze) ([], 0, 0)).2.2) := by
  intro ts
  induction ts with
  | nil => intro acc; simp
  | cons t ts ih =>
    intro acc
    rw [List.foldl_cons, List.foldl_cons]
    rw [ih (batchStep analyze acc t), ih (batchStep analyze ([], 0, 0) t)]
    unfold batchStep
    simp [List.append_assoc, Nat.add_assoc]

lemma batch_counts (analyze : String → Except String SResult × ℕ × List ℕ) :
    ∀ ts : List Ticket,
      (ts.foldl (batchStep analyze) ([], 0, 0)).2.1 =
        (ts.foldl (batchStep analyze) ([], 0, 0)).1.countP (isUpdWith "processed") ∧
      (ts.foldl (batchStep analyze) ([], 0, 0)).2.2 =
        (ts.foldl (batchStep analyze) ([], 0, 0)).1.countP (isUpdWith "error") := by
  intro ts
  induction ts with
  | nil => exact ⟨rfl, rfl⟩
  | cons t ts ih =>
    rw [List.foldl_cons, batch_fold_split analyze ts (batchStep analyze ([], 0, 0) t)]
    obtain ⟨ihp, ihe⟩ := ih
    obtain ⟨hp, he⟩ := processTicket_counts analyze t
    have h1 : (batchStep analyze ([], 0, 0) t).1 = (processTicket analyze t).1 := by
      unfold batchStep
      simp
    have h21 : (batchStep analyze ([], 0, 0) t).2.1 =
        (if (processTicket analyze t).2.1 then 1 else 0) := by
      unfold batchStep
      simp
    have h22 : (batchStep analyze ([], 0, 0) t).2.2 =
        (if (processTicket analyze t).2.2 then 1 else 0) := by
      unfold batchStep
      simp
    refine ⟨?_, ?_⟩
    · show (batchStep analyze ([], 0, 0) t).2.1 +
          (ts.foldl (batchStep analyze) ([], 0, 0)).2.1 =
        ((batchStep analyze ([], 0, 0) t).1 ++
          (ts.foldl (batchStep analyze) ([], 0, 0)).1).countP (isUpdWith "processed")
      rw [h21, h1, List.countP_append, hp, ihp]
    · show (batchStep analyze ([], 0, 0) t).2.2 +
          (ts.foldl (batchStep analyze) ([], 0, 0)).2.2 =
        ((batchStep analyze ([], 0, 0) t).1 ++
          (ts.foldl (batchStep analyze) ([], 0, 0)).1).countP (isUpdWith "error")
      rw [h22, h1, List.countP_append, he, ihe]

/-- C6 counterexample: `process_tickets_batch` returns no
`(processedCount, errorCount)` value — the Python function body has no
`return` statement, so its result is `None` — here at a concrete batch of
one empty-message ticket. -/
theorem c6_counterexample :
    (process_tickets_batch (fun _ => (Except.error "boom", 3, [2000, 4000]))
      [⟨"a", "", "new", 0⟩] 10).2.2.2 = none ∧
    ∀ pe : ℕ × ℕ, (process_tickets_batch
      (fun _ => (Except.error "boom", 3, [2000, 4000]))
      [⟨"a", "", "new", 0⟩] 10).2.2.2 ≠ some pe :=
  ⟨rfl, fun pe h =>
    Option.noConfusion (show (none : Option (ℕ × ℕ)) = some pe from h)⟩

/-- C6 amended: `process_tickets_batch` computes (and logs) a
`processed_count` equal to the number of tickets of the batch that reached
`processed` and an `error_count` equal to the number that reached `error`
(counted as the respective terminal status updates in the event trace), but
returns no value (`None`). -/
theorem c6_batch_counts_amended
    (analyze : String → Except String SResult × ℕ × List ℕ)
    (store : List Ticket) (batchSize : ℕ) :
    (process_tickets_batch analyze store batchSize).2.2.2 = none ∧
    (process_tickets_batch analyze store batchSize).2.1 =
      (process_tickets_batch analyze store batchSize).1.countP
        (isUpdWith "processed") ∧
    (process_tickets_batch analyze store batchSize).2.2.1 =
      (process_tickets_batch analyze store batchSize).1.countP
        (isUpdWith "error") := by
  obtain ⟨hp, he⟩ := batch_counts analyze (get_pending_tickets store batchSize)
  exact ⟨rfl, hp, he⟩

/- ===================== C7 ===================== -/

/-- C7 counterexample: with tickets only on day 1 (anger) and day 3
(neutral), the daily trend has rows exactly for days 1 and 3 — day 2 lies
strictly between the minimum and maximum observed date but has no row, so
the matrix is not dense over the full date range. -/
theorem c7_counterexample :
    ((dailyTrend [⟨"anger", 86400⟩, ⟨"neutral", 259200⟩]).map Prod.fst = [1, 3]) ∧
    ((1 : ℤ) < 2 ∧ (2 : ℤ) < 3) ∧
    (2 : ℤ) ∉ (dailyTrend [⟨"anger", 86400⟩, ⟨"neutral", 259200⟩]).map Prod.fst := by
  refine ⟨by decide, by decide, by decide⟩

lemma trendDates_sorted_mem (rows : List Row) :
    ((trendDates rows).Pairwise (· < ·)) ∧
    (∀ d : ℤ, d ∈ trendDates rows ↔ ∃ r ∈ rows, dateOf r.timestamp = d) := by
  constructor
  · have hsorted : (trendDates rows).Sorted (· ≤ ·) :=
      List.sorted_insertionSort (· ≤ ·) _
    have hnodup : (trendDates rows).Nodup :=
      ((List.perm_insertionSort (· ≤ ·) _).nodup_iff).mpr
        (List.nodup_dedup _)
    exact (List.Pairwise.and hsorted hnodup).imp
      (fun hab => lt_of_le_of_ne hab.1 hab.2)
  · intro d
    unfold trendDates sortedDedupInt
    rw [(List.perm_insertionSort (· ≤ ·) _).mem_iff, List.mem_dedup, List.mem_map]

/-- C7 amended: for every nonempty ticket collection, the daily trend is a
matrix whose rows are exactly the observed dates (dates with at least one
ticket), strictly ascending — not every date between the minimum and
maximum — and whose row for date `d` has one entry per observed sentiment
`s` holding the count of tickets with that date and sentiment, `0` for
(date, sentiment) combinations with no tickets. -/
theorem c7_daily_trend_amended (rows : List Row) (hne : rows ≠ []) :
    (((dailyTrend rows).map Prod.fst).Pairwise (· < ·)) ∧
    (∀ d : ℤ, d ∈ (dailyTrend rows).map Prod.fst ↔
      ∃ r ∈ rows, dateOf r.timestamp = d) ∧
    (∀ p ∈ dailyTrend rows, p.2.map Prod.fst = trendSents rows ∧
      ∀ q ∈ p.2, q.2 = (rows.filter (fun r =>
        dateOf r.timestamp == p.1 && r.sentiment == q.1)).length) := by
  have hfst : (dailyTrend rows).map Prod.fst = trendDates rows := by
    unfold dailyTrend
    rw [List.map_map]
    exact List.map_id'' (fun d => rfl) _
  obtain ⟨hsorted, hmem⟩ := trendDates_sorted_mem rows
  refine ⟨by rw [hfst]; exact hsorted, by rw [hfst]; exact hmem, ?_⟩
  intro p hp
  obtain ⟨d, _, rfl⟩ := List.mem_map.mp hp
  constructor
  · rw [List.map_map]
    exact List.map_id'' (fun v => rfl) _
  · intro q hq
    obtain ⟨sVal, _, rfl⟩ := List.mem_map.mp hq
    rfl

/-- Witness for C7 amended at the two-day example. -/
theorem c7_witness :
    ((((dailyTrend [⟨"anger", 86400⟩, ⟨"neutral", 259200⟩]).map
      Prod.fst).Pairwise (· < ·)) ∧
    (∀ d : ℤ, d ∈ (dailyTrend [⟨"anger", 86400⟩, ⟨"neutral", 259200⟩]).map Prod.fst ↔
      ∃ r ∈ ([⟨"anger", 86400⟩, ⟨"neutral", 259200⟩] : List Row),
        dateOf r.timestamp = d) ∧
    (∀ p ∈ dailyTrend [⟨"anger", 86400⟩, ⟨"neutral", 259200⟩],
      p.2.map Prod.fst = trendSents [⟨"anger", 86400⟩, ⟨"neutral", 259200⟩] ∧
      ∀ q ∈ p.2, q.2 = (([⟨"anger", 86400⟩, ⟨"neutral", 259200⟩] :
        List Row).filter (fun r =>
        dateOf r.timestamp == p.1 && r.sentiment == q.1)).length)) :=
  c7_daily_trend_amended [⟨"anger", 86400⟩, ⟨"neutral", 259200⟩] (by simp)

/- ===================== C8 ===================== -/

/-- C8 counterexample: the transition to `processing` does not change only
the status field — the update dict written by `update_ticket_status`
always contains `processed_timestamp: SERVER_TIMESTAMP`, including for the
`processing` transition (it does leave the classification fields unset). -/
theorem c8_counterexample :
    (update_ticket_status "processing" none).setsProcessedAt = true ∧
    (update_ticket_status "processing" none).classification = none :=
  ⟨rfl, rfl⟩

/-- C8 amended: every status update written by `update_ticket_status`
(including the transition to `processing`) sets `processed_timestamp`;
the classification fields are written exactly when sentiment data is
passed, and in every trace of the ticket loop every update sets
`processed_timestamp` while classification data is carried only by an
update whose status is `processed` — the `processing` and `error`
updates carry none. -/
theorem c8_update_delta_amended (s : String) (d : Option SResult)
    (analyze : String → Except String SResult × ℕ × List ℕ) (t : Ticket) :
    (update_ticket_status s d).status = s ∧
    (update_ticket_status s d).setsProcessedAt = true ∧
    (update_ticket_status s d).classification = d ∧
    (∀ i δ, Ev.upd i δ ∈ (processTicket analyze t).1 →
      δ.setsProcessedAt = true ∧
      (δ.status ≠ "processed" → δ.classification = none)) := by
  refine ⟨rfl, rfl, rfl, ?_⟩
  intro i δ hmem
  unfold processTicket at hmem
  by_cases hstrip : pyStrip t.message.toList = []
  · rw [if_pos hstrip] at hmem
    simp at hmem
    rw [hmem.2]
    exact ⟨rfl, fun _ => rfl⟩
  · rw [if_neg hstrip] at hmem
    rcases hana : analyze t.message with ⟨res, n, ds⟩
    rw [hana] at hmem
    cases res with
    | ok r =>
      simp only [List.mem_append, List.mem_cons, List.mem_singleton,
        List.mem_replicate, List.mem_map, List.not_mem_nil, or_false] at hmem
      rcases hmem with ((hmem | hmem) | hmem) | hmem | hmem
      · rw [(Ev.upd.injEq _ _ _ _).mp hmem |>.2]
        exact ⟨rfl, fun _ => rfl⟩
      · exact absurd hmem.2 (by intro hcon; cases hcon)
      · obtain ⟨m, _, hcon⟩ := hmem
        cases hcon
      · rw [(Ev.upd.injEq _ _ _ _).mp hmem |>.2]
        exact ⟨rfl, fun hcon => absurd rfl hcon⟩
      · cases hmem
    | error e =>
      simp only [List.mem_append, List.mem_cons, List.mem_singleton,
        List.mem_replicate, List.mem_map, List.not_mem_nil, or_false] at hmem
      rcases hmem with ((hmem | hmem) | hmem) | hmem
      · rw [(Ev.upd.injEq _ _ _ _).mp hmem |>.2]
        exact ⟨rfl, fun _ => rfl⟩
      · exact absurd hmem.2 (by intro hcon; cases hcon)
      · obtain ⟨m, _, hcon⟩ := hmem
        cases hcon
      · rw [(Ev.upd.injEq _ _ _ _).mp hmem |>.2]
        exact ⟨rfl, fun _ => rfl⟩

/-- Witness for C8 amended at a concrete update and ticket. -/
theorem c8_witness :
    (update_ticket_status "processing" none).status = "processing" ∧
    (update_ticket_status "processing" none).setsProcessedAt = true ∧
    (update_ticket_status "processing" none).classification = none ∧
    (∀ i δ, Ev.upd i δ ∈ (processTicket (fun _ => (Except.error "x", 3, [2000, 4000]))
        ⟨"t1", "hello there friend", "new", 0⟩).1 →
      δ.setsProcessedAt = true ∧
      (δ.status ≠ "processed" → δ.classification = none)) :=
  c8_update_delta_amended "processing" none
    (fun _ => (Except.error "x", 3, [2000, 4000]))
    ⟨"t1", "hello there friend", "new", 0⟩

/- ===================== C9 ===================== -/

/-- C9 counterexample: `get_pending_tickets` applies no ordering — with two
`new` tickets stored in document-id order `docA` (createdAt 5), `docB`
(createdAt 3), the returned sequence has createdAt values `[5, 3]`, which
is not ascending. -/
theorem c9_counterexample :
    ((get_pending_tickets
      [⟨"docA", "m", "new", 5⟩, ⟨"docB", "m", "new", 3⟩] 10).map
        Ticket.createdAt = [5, 3]) ∧
    ¬ List.Sorted (· ≤ ·) ((get_pending_tickets
      [⟨"docA", "m", "new", 5⟩, ⟨"docB", "m", "new", 3⟩] 10).map
        Ticket.createdAt) := by
  refine ⟨rfl, ?_⟩
  intro hcon
  rw [show (get_pending_tickets
      [⟨"docA", "m", "new", 5⟩, ⟨"docB", "m", "new", 3⟩] 10).map
        Ticket.createdAt = [5, 3] from rfl] at hcon
  have := (List.pairwise_cons.mp hcon).1 3 (by simp)
  omega

/-- C9 amended: `get_pending_tickets` returns at most `N` tickets, every
returned ticket has status `new`, and the returned sequence is a
subsequence of the store in its document-id enumeration order — no
`createdAt` ordering is imposed. -/
theorem c9_fetch_pending_amended (store : List Ticket) (N : ℕ) :
    (get_pending_tickets store N).length ≤ N ∧
    (∀ t ∈ get_pending_tickets store N, t.status = "new") ∧
    (get_pending_tickets store N).Sublist store := by
  refine ⟨List.length_take_le N _, ?_, ?_⟩
  · intro t ht
    have hmem := List.mem_of_mem_take ht
    have := (List.mem_filter.mp hmem).2
    simpa using this
  · exact (List.take_sublist _ _).trans (List.filter_sublist _)

/-- Witness for C9 amended at a concrete store. -/
theorem c9_witness :
    (get_pending_tickets [⟨"docA", "m", "new", 5⟩, ⟨"docB", "m", "new", 3⟩] 1).length
      ≤ 1 ∧
    (∀ t ∈ get_pending_tickets [⟨"docA", "m", "new", 5⟩, ⟨"docB", "m", "new", 3⟩] 1,
      t.status = "new") ∧
    (get_pending_tickets [⟨"docA", "m", "new", 5⟩, ⟨"docB", "m", "new", 3⟩] 1).Sublist
      [⟨"docA", "m", "new", 5⟩, ⟨"docB", "m", "new", 3⟩] :=
  c9_fetch_pending_amended [⟨"docA", "m", "new", 5⟩, ⟨"docB", "m", "new", 3⟩] 1

/- ===================== C10 ===================== -/

lemma pyStrip_eq_self_of_ends {s : Str} (h1 : ∀ c, s.head? = some c → pyWs c = false)
    (h2 : ∀ c, s.getLast? = some c → pyWs c = false) : pyStrip s = s :=
  pyStrip_eq_self s h1 h2

lemma getLast?_append_bt (A : Str) :
    (A ++ "```".toList).getLast? = some '`' := by
  rw [show ("```".toList : Str) = ['`', '`'] ++ ['`'] from rfl,
    ← List.append_assoc, List.getLast?_concat]

lemma cleanResponse_eval (s : Str) (hstrip : pyStrip s = s) :
    cleanResponse s =
      if "```".toList.isSuffixOf
          (if "```json".toList.isPrefixOf s then s.drop 7 else s) then
        (if "```json".toList.isPrefixOf s then s.drop 7 else s).take
          ((if "```json".toList.isPrefixOf s then s.drop 7 else s).length - 3)
      else (if "```json".toList.isPrefixOf s then s.drop 7 else s) := by
  unfold cleanResponse
  rw [hstrip]

/-- C10: the classifier-response cleanup strips Markdown code fences before
JSON decoding.  A payload wrapped in both fences is recovered exactly; a
payload with only the opening fence (not itself ending in a fence or
whitespace) and one with only the closing fence (not itself starting with
whitespace or looking like an opening fence) are likewise recovered, so a
fenced but otherwise valid JSON payload reaches the decoder unfenced. -/
theorem c10_fence_stripping (p q r : Str)
    (hq1 : ∀ c, q.getLast? = some c → pyWs c = false)
    (hq2 : ¬ ("```".toList <:+ q))
    (hr1 : ∀ c, r.head? = some c → pyWs c = false)
    (hr2 : ¬ ("```json".toList <+: (r ++ "```".toList))) :
    cleanResponse ("```json".toList ++ p ++ "```".toList) = p ∧
    cleanResponse ("```json".toList ++ q) = q ∧
    cleanResponse (r ++ "```".toList) = r := by
  refine ⟨?_, ?_, ?_⟩
  · have hstrip : pyStrip ("```json".toList ++ p ++ "```".toList) =
        "```json".toList ++ p ++ "```".toList := by
      refine pyStrip_eq_self_of_ends ?_ ?_
      · intro c hc
        simp at hc
        rw [← hc]
        decide
      · intro c hc
        rw [getLast?_append_bt] at hc
        simp at hc
        rw [← hc]
        decide
    have hdrop : (if "```json".toList.isPrefixOf
          ("```json".toList ++ p ++ "```".toList) then
        ("```json".toList ++ p ++ "```".toList).drop 7
      else ("```json".toList ++ p ++ "```".toList)) = p ++ "```".toList := by
      rw [if_pos (by
        apply List.isPrefixOf_iff_prefix.mpr
        exact ⟨p ++ "```".toList, by rw [List.append_assoc]⟩)]
      rw [List.append_assoc]
      show List.drop ("```json".toList : Str).length _ = _
      exact List.drop_left _ _
    rw [cleanResponse_eval _ hstrip, hdrop]
    rw [if_pos (List.isSuffixOf_iff_suffix.mpr ⟨p, rfl⟩)]
    have hlen : (p ++ "```".toList).length - 3 = p.length := by
      rw [List.length_append]
      rfl
    rw [hlen]
    exact List.take_left _ _
  · have hstrip : pyStrip ("```json".toList ++ q) = "```json".toList ++ q := by
      refine pyStrip_eq_self_of_ends ?_ ?_
      · intro c hc
        simp at hc
        rw [← hc]
        decide
      · intro c hc
        cases hq : q with
        | nil =>
          rw [hq, List.append_nil] at hc
          simp at hc
          rw [← hc]
          decide
        | cons d ds =>
          rw [hq, List.getLast?_append,
            List.getLast?_eq_getLast (d :: ds) (by simp)] at hc
          simp at hc
          refine hq1 c ?_
          rw [hq, ← hc]
          exact List.getLast?_eq_getLast _ _
    have hdrop : (if "```json".toList.isPrefixOf ("```json".toList ++ q) then
        ("```json".toList ++ q).drop 7
      else ("```json".toList ++ q)) = q := by
      rw [if_pos (List.isPrefixOf_iff_prefix.mpr ⟨q, rfl⟩)]
      show List.drop ("```json".toList : Str).length _ = _
      exact List.drop_left _ _
    rw [cleanResponse_eval _ hstrip, hdrop]
    rw [if_neg (by
      intro hcon
      exact hq2 (List.isSuffixOf_iff_suffix.mp hcon))]
  · have hstrip : pyStrip (r ++ "```".toList) = r ++ "```".toList := by
      refine pyStrip_eq_self_of_ends ?_ ?_
      · intro c hc
        cases hr : r with
        | nil =>
          rw [hr, List.nil_append] at hc
          simp at hc
          rw [← hc]
          decide
        | cons d ds =>
          rw [hr] at hc
          simp at hc
          refine hr1 c ?_
          rw [hr, ← hc]
          rfl
      · intro c hc
        rw [getLast?_append_bt] at hc
        simp at hc
        rw [← hc]
        decide
    have hdrop : (if "```json".toList.isPrefixOf (r ++ "```".toList) then
        (r ++ "```".toList).drop 7
      else (r ++ "```".toList)) = r ++ "```".toList := by
      rw [if_neg (by
        intro hcon
        exact hr2 (List.isPrefixOf_iff_prefix.mp hcon))]
    rw [cleanResponse_eval _ hstrip, hdrop]
    rw [if_pos (List.isSuffixOf_iff_suffix.mpr ⟨r, rfl⟩)]
    have hlen : (r ++ "```".toList).length - 3 = r.length := by
      rw [List.length_append]
      rfl
    rw [hlen]
    exact List.take_left _ _

/-- Witness for C10 at concrete payloads. -/
theorem c10_witness :
    cleanResponse ("```json".toList ++ "[1, 2]".toList ++ "```".toList) =
      "[1, 2]".toList ∧
    cleanResponse ("```json".toList ++ "xyz".toList) = "xyz".toList ∧
    cleanResponse ("abc".toList ++ "```".toList) = "abc".toList :=
  c10_fence_stripping "[1, 2]".toList "xyz".toList "abc".toList
    (by decide) (by decide) (by decide) (by decide)

end Sentinova
